import Mathlib

/-!
Verification of the global-declaration resolution engine of an XML Schema
processing library (source files `namespaces.py` and `dataobjects.py`) through
a shallow embedding in Lean.

The embedding keeps the source's control flow: component maps are association
lists from qualified names to values that are either a built instance, a raw
declaration pair, or a redefinition chain; the builder is the fixed-point loop
of `build_xsd_map` with its per-pass deferral lists; the loader is the
two-phase scan of `load_xsd_globals`.  Factory functions, the document query
facility and schema documents are external collaborators and are modelled at
their interfaces.  Ghost data (the invocation log of the builder and the loop
state carried inside failure values) is added where a property speaks about
events of a run; it never influences the computed results.
-/

set_option autoImplicit false

namespace XmlSchema

/-! ## Data model of `dataobjects.py` -/

/-- Model of an XSD type object that can be bound to a data element (an
external collaborator; only its identity is observable here). -/
structure XsdTypeB where
  tid : Nat
deriving DecidableEq, Repr

/-- Model of an XSD element declaration bound to a data element (external
collaborator): the container only reads its `type` attribute. -/
structure XsdElemB where
  ebid : Nat
  typeOf : XsdTypeB
deriving DecidableEq, Repr

mutual
/-- Model of `DataElement`: tag, optional schema-element binding
(`xsd_element`), the private explicit type override (`_xsd_type`) and the
ordered children.  Source fields not touched by any claim (`value`, `attrib`,
`nsmap`, `tail`) are omitted from the model. -/
inductive DataElement : Type where
  | mk (tag : String) (xsdElement : Option XsdElemB) (xsdTypeRaw : Option XsdTypeB)
      (children : DEList)
/-- Children list of a `DataElement` (a two-sorted rendering of
`List DataElement`, which keeps the mutual induction principles simple). -/
inductive DEList : Type where
  | nil
  | cons (head : DataElement) (tail : DEList)
end

/-- Tag of a data element. -/
def DataElement.tag : DataElement → String
  | .mk t _ _ _ => t

/-- Schema-element binding (`xsd_element` attribute). -/
def DataElement.xsdElement : DataElement → Option XsdElemB
  | .mk _ xe _ _ => xe

/-- Private explicit type override (`_xsd_type` attribute). -/
def DataElement.xsdTypeRaw : DataElement → Option XsdTypeB
  | .mk _ _ xt _ => xt

/-- Children of a data element. -/
def DataElement.children : DataElement → DEList
  | .mk _ _ _ cs => cs

/-- Embedding of the `DataElement.xsd_type` property getter: the explicit
override when one is set, else the bound element's `type`, else `None`. -/
def DataElement.xsdType (d : DataElement) : Option XsdTypeB :=
  match d.xsdTypeRaw with
  | some t => some t
  | none =>
    match d.xsdElement with
    | some e => some e.typeOf
    | none => none

/-- Embedding of the `DataElement.xsd_type` property setter: it assigns the
private override `_xsd_type` and nothing else. -/
def DataElement.setXsdType (d : DataElement) (t : Option XsdTypeB) : DataElement :=
  match d with
  | .mk tg xe _ cs => .mk tg xe t cs

mutual
/-- Embedding of `DataElement.iter`: an absent tag is replaced by the wildcard,
the element itself is yielded when the (replaced) tag is the wildcard or equals
the element's own tag, then every child is iterated with the replaced tag. -/
def DataElement.iter (d : DataElement) (t : Option String) : List DataElement :=
  match d with
  | .mk tg xe xt cs =>
    let t' := match t with | none => "*" | some s => s
    (if t' = "*" ∨ t' = tg then [DataElement.mk tg xe xt cs] else [])
      ++ DEList.iterAll cs (some t')
/-- Children part of `DataElement.iter` (the `for child in self._children` loop). -/
def DEList.iterAll (l : DEList) (t : Option String) : List DataElement :=
  match l with
  | .nil => []
  | .cons d rest => d.iter t ++ rest.iterAll t
end

mutual
/-- Depth-first, self-then-descendants order of a data element tree. -/
def DataElement.preorder (d : DataElement) : List DataElement :=
  match d with
  | .mk tg xe xt cs => DataElement.mk tg xe xt cs :: DEList.preorderAll cs
/-- Concatenated preorders of a children list. -/
def DEList.preorderAll (l : DEList) : List DataElement :=
  match l with
  | .nil => []
  | .cons d rest => d.preorder ++ rest.preorderAll
end

/-! ## Data model of `namespaces.py`: elements, schemas, qualified names -/

/-- Model of a parsed XML element node: its tag, the value of its `name`
attribute, a distinguishing identity, and the results of the external
`iterfind` path-query facility tabulated per queried path.  Tags and paths are
numbers; the namespace-prefix mapping of `iterfind`, which the engine forwards
verbatim to the external facility, is not modelled. -/
inductive Elem : Type where
  | mk (tag : Nat) (nameAttr : String) (eid : Nat) (sub : List (Nat × List Elem))

/-- Tag of an element. -/
def Elem.tag : Elem → Nat
  | .mk t _ _ _ => t

/-- Value of the `name` attribute of a declaration element
(`get_xsd_attribute(elem, 'name')`). -/
def Elem.nameAttr : Elem → String
  | .mk _ n _ _ => n

/-- Identity of an element (used to name elements inside error values). -/
def Elem.eid : Elem → Nat
  | .mk _ _ i _ => i

/-- Tabulated query results of an element. -/
def Elem.sub : Elem → List (Nat × List Elem)
  | .mk _ _ _ s => s

/-- First tabulated result list for a path. -/
def lookupSub : List (Nat × List Elem) → Nat → List Elem
  | [], _ => []
  | (p, res) :: rest, q => if p = q then res else lookupSub rest q

/-- Embedding of the external document query facility
`elements.iterfind(path, nsmap)`: an ordered sequence of elements exposing
`tag`, looked up from the tabulated results. -/
def Elem.iterfind (e : Elem) (path : Nat) : List Elem :=
  lookupSub e.sub path

/-- Qualified name: namespace URI and local name (`get_qname` pairs the target
namespace with the declaration's name attribute). -/
abbrev QName := String × String

/-- Embedding of `get_qname`. -/
def getQname (ns : String) (nm : String) : QName := (ns, nm)

/-- Embedding of `get_namespace` on qualified names. -/
def getNamespaceOf (q : QName) : String := q.1

/-- Embedding of `local_name` on qualified names. -/
def localNameOf (q : QName) : String := q.2

/-! ## Tag Scanner (`create_iterfind_by_tag`) -/

/-- Embedding of the single-document branch of the function produced by
`create_iterfind_by_tag`: query the document with `path or tag` and keep
exactly the results whose tag equals the target. -/
def iterfindByTag (tag : Nat) (doc : Elem) (path : Option Nat) : List Elem :=
  (doc.iterfind (path.getD tag)).filter (fun e => e.tag == tag)

/-- Embedding of the list branch of the same function: for each document of the
list, one item is yielded per element found inside it whose tag equals the
target, and the yielded item is the containing document itself (`yield _elem`
in the source). -/
def iterfindByTagList (tag : Nat) (docs : List Elem) (path : Option Nat) : List Elem :=
  docs.flatMap (fun d => (iterfindByTag tag d path).map (fun _ => d))

/-! ## Schemas, instances and component-map entries -/

/-- Model of a schema document object: registration identity, target
namespace, the `built` flag and the parsed root element. -/
structure Schema where
  sid : Nat
  targetNamespace : String
  built : Bool
  root : Elem

/-- Model of a built XSD component instance (`XsdBase`): identity, component
name, the declaration element and owning schema it exposes as `.elem` and
`.schema`, and the elements reachable through `iter_elements()` (used by the
base-elements expansion of `build()`). -/
inductive Inst : Type where
  | mk (iid : Nat) (nameOf : QName) (elem : Option Elem) (schema : Schema)
      (subElems : List Inst)

/-- Identity of an instance. -/
def Inst.iid : Inst → Nat
  | .mk i _ _ _ _ => i

/-- Component name of an instance. -/
def Inst.nameOf : Inst → QName
  | .mk _ n _ _ _ => n

/-- Declaration element exposed by an instance (`obj.elem`). -/
def Inst.elem : Inst → Option Elem
  | .mk _ _ e _ _ => e

/-- Owning schema exposed by an instance (`obj.schema`). -/
def Inst.schema : Inst → Schema
  | .mk _ _ _ s _ => s

/-- Elements yielded by `iter_elements()` of an instance. -/
def Inst.subElems : Inst → List Inst
  | .mk _ _ _ _ es => es

/-- Raw declaration: the pair of a declaration element and its owning schema. -/
abbrev Link := Elem × Schema

/-- Shape of a component-map value: a built instance, a raw declaration pair,
or a redefinition chain.  In the source a chain is a Python list of length at
least two whose cell 0 is either still a raw pair or holds the partially
resolved instance (`obj[0] = xsd_instance`), so the chain constructor keeps
cell 0 (`head`), cell 1 (`link1`) and the remaining cells apart; no source
code path ever constructs a list of fewer than two cells. -/
inductive Entry : Type where
  | inst (i : Inst)
  | single (l : Link)
  | chain (head : Sum Inst Link) (link1 : Link) (rest : List Link)

/-- Check for the resolved shape. -/
def Entry.isInst : Entry → Bool
  | .inst _ => true
  | _ => false

/-- Pending (still raw) declaration links of a map value. -/
def Entry.pendingLinks : Entry → List Link
  | .inst _ => []
  | .single l => [l]
  | .chain (.inr l0) l1 rest => l0 :: l1 :: rest
  | .chain (.inl _) l1 rest => l1 :: rest

/-- Component map: qualified names to entries (a Python dict in the source,
rendered as an association list whose order is the insertion order). -/
abbrev GMap := List (QName × Entry)

/-- First entry stored under a key. -/
def lookupG : GMap → QName → Option Entry
  | [], _ => none
  | (k, e) :: rest, q => if k = q then some e else lookupG rest q

/-- Store an entry under a key: replace the first binding when the key is
present, append a new binding otherwise (dict assignment). -/
def updateG : GMap → QName → Entry → GMap
  | [], q, e => [(q, e)]
  | (k, e0) :: rest, q, e => if k = q then (k, e) :: rest else (k, e0) :: updateG rest q e

/-- Keys of a component map. -/
def keysOf (m : GMap) : List QName := m.map Prod.fst

/-! ## Factory contract and error values -/

/-- Result of one factory invocation: a (qualified name, instance) pair on
success, or one of the two recognized failure signals — "not yet resolvable"
(`XMLSchemaTypeError`) and "referenced component undefined"
(`XMLSchemaLookupError`). -/
inductive FRes : Type where
  | ok (q : QName) (i : Inst)
  | typeErr (msg : Nat)
  | lookupErr (msg : Nat)

/-- External factory function: declaration element, owning schema, optional
previous instance.  The `is_global` flag and the forwarded configuration are
constant over one builder run and are left implicit in the function value. -/
abbrev Factory := Elem → Schema → Option Inst → FRes

/-- Terminal errors of the engine. -/
inductive BErr : Type where
  /-- A surfaced `XMLSchemaLookupError` (re-raised as `errors[0]` on a
  no-progress pass). -/
  | lookupE (msg : Nat)
  /-- The "wrong result name" structural parse error. -/
  | wrongName (res : QName) (q : QName)
  /-- The "not a redefinition!" structural parse error, naming the offending
  declaration element. -/
  | noRedef (eid : Nat)
  /-- The generic no-progress parse error, naming the stuck element. -/
  | exhaustGeneric (eid : Nat)
  /-- Crash of the base-elements expansion on a value without
  `iter_elements` (an uncaught attribute error in the source). -/
  | attrCrash
  /-- Model-level marker for running out of loop fuel; shown unreachable. -/
  | fuelOut
deriving DecidableEq, Repr

/-- Failure value of the builder: the raised error together with ghost data
recording the loop state at the moment of the raise — the keys of the current
pass not yet processed, the deferred keys, the `errors_counter`, and the
recorded lookup failures.  The ghost fields never influence computation. -/
structure BuildFail where
  err : BErr
  pendingKeys : List QName
  deferredKeys : List QName
  ecAt : Nat
  recorded : List BErr
deriving Repr

/-- Ghost record of one factory invocation: the key being processed, the
declaration element, the owning schema, and the previous-instance argument. -/
structure CallRec where
  key : QName
  elem : Elem
  schema : Schema
  prev : Option Inst

/-! ## Declaration Builder (`create_builder_function` / `build_xsd_map`) -/

/-- Outcome of processing one key of the working set in one pass: `skip` is
`continue` (optionally after updating the entry to a partially resolved
chain), `store` assigns a resolved instance, `deferred` is a caught factory
failure (carrying the lookup message when the failure must be recorded and the
identity of the stuck element), `fatal` is an uncaught raise. -/
inductive KeyStep : Type where
  | skip (upd : Option Entry) (calls : List CallRec)
  | store (i : Inst) (calls : List CallRec)
  | deferred (upd : Option Entry) (lookupMsg : Option Nat) (stuckEid : Nat)
      (calls : List CallRec)
  | fatal (e : BErr) (calls : List CallRec)

/-- Embedding of the chain walk of `build_xsd_map` (the `isinstance(obj, list)`
branch): process the pending cells in order, threading the instance through
`obj[0]`; a cell whose tag differs from the target breaks the walk, leaving
the partially resolved chain in place; after a complete walk the last result's
tag and qualified name are checked and the last instance is stored.  `link1`
and `rest` are cells 1.. of the list, which the source never removes;
`headNow` is the current cell 0.  The walk is never entered with an empty
pending list (chains have at least two cells), so the `lastRes = none` leaf is
unreachable and rendered as a skip. -/
def walkLinks (f : Factory) (tag : Nat) (q : QName) (link1 : Link) (rest : List Link) :
    Option Inst → Sum Inst Link → List Link → Option (QName × Inst × Elem) →
    List CallRec → KeyStep
  | _prev, _headNow, [], none, calls => .skip none calls
  | _prev, _headNow, [], some (rq, i, e), calls =>
    if e.tag ≠ tag then .skip none calls
    else if rq ≠ q then .fatal (.wrongName rq q) calls
    else .store i calls
  | prev, headNow, (e, s) :: pend, _lastRes, calls =>
    if e.tag ≠ tag then
      .skip (some (.chain headNow link1 rest)) calls
    else
      match f e s prev with
      | .ok rq i =>
        walkLinks f tag q link1 rest (some i) (.inl i) pend (some (rq, i, e))
          (calls ++ [⟨q, e, s, prev⟩])
      | .typeErr _ =>
        .deferred (some (.chain headNow link1 rest)) none e.eid (calls ++ [⟨q, e, s, prev⟩])
      | .lookupErr msg =>
        .deferred (some (.chain headNow link1 rest)) (some msg) e.eid
          (calls ++ [⟨q, e, s, prev⟩])

/-- Embedding of the body of the `for qname in global_names` loop of
`build_xsd_map`: dispatch on the shape of the stored value.  A worked key is
always present in the map, so the `none` case is unreachable and rendered as a
skip. -/
def processKey (f : Factory) (tag : Nat) (q : QName) : Option Entry → KeyStep
  | none => .skip none []
  | some (Entry.inst i) =>
    match i.elem with
    | none => .skip none []
    | some e =>
      if e.tag ≠ tag ∨ i.schema.built then .skip none []
      else
        match f e i.schema (some i) with
        | .ok rq x =>
          if e.tag ≠ tag then .skip none [⟨q, e, i.schema, some i⟩]
          else if rq ≠ q then .fatal (.wrongName rq q) [⟨q, e, i.schema, some i⟩]
          else .store x [⟨q, e, i.schema, some i⟩]
        | .typeErr _ => .deferred none none e.eid [⟨q, e, i.schema, some i⟩]
        | .lookupErr msg => .deferred none (some msg) e.eid [⟨q, e, i.schema, some i⟩]
  | some (Entry.single (e, s)) =>
    if e.tag ≠ tag then .skip none []
    else
      match f e s none with
      | .ok rq x =>
        if e.tag ≠ tag then .skip none [⟨q, e, s, none⟩]
        else if rq ≠ q then .fatal (.wrongName rq q) [⟨q, e, s, none⟩]
        else .store x [⟨q, e, s, none⟩]
      | .typeErr _ => .deferred none none e.eid [⟨q, e, s, none⟩]
      | .lookupErr msg => .deferred none (some msg) e.eid [⟨q, e, s, none⟩]
  | some (Entry.chain (.inr l0) l1 rest) =>
    walkLinks f tag q l1 rest none (.inr l0) (l0 :: l1 :: rest) none []
  | some (Entry.chain (.inl i) l1 rest) =>
    walkLinks f tag q l1 rest (some i) (.inl i) (l1 :: rest) none []

/-- Apply an optional in-place entry update. -/
def applyUpd (m : GMap) (q : QName) : Option Entry → GMap
  | none => m
  | some e => updateG m q e

/-- Embedding of one pass of `build_xsd_map` over the working set: keys are
processed in order, deferred keys accumulate in `missing`, caught lookup
failures accumulate in `errs`, and after every deferral the source compares
`len(missing)` with the previous pass's `errors_counter` and raises `errors[0]`
(or a generic parse error naming the stuck element) on equality. -/
def runPass (f : Factory) (tag : Nat) (ec : Nat) :
    List QName → GMap → List QName → List BErr → List CallRec →
    Except BuildFail (GMap × List QName × List CallRec)
  | [], m, missing, _errs, log => .ok (m, missing, log)
  | q :: ws, m, missing, errs, log =>
    match processKey f tag q (lookupG m q) with
    | .skip upd calls =>
      runPass f tag ec ws (applyUpd m q upd) missing errs (log ++ calls)
    | .store i calls =>
      runPass f tag ec ws (updateG m q (.inst i)) missing errs (log ++ calls)
    | .fatal e _calls => .error ⟨e, ws, missing, ec, errs⟩
    | .deferred upd lkup stuckEid calls =>
      let m' := applyUpd m q upd
      let missing' := missing ++ [q]
      let errs' := match lkup with
        | some msg => errs ++ [BErr.lookupE msg]
        | none => errs
      if missing'.length = ec then
        .error ⟨(match errs' with
                 | e :: _ => e
                 | [] => BErr.exhaustGeneric stuckEid),
                ws, missing', ec, errs'⟩
      else
        runPass f tag ec ws m' missing' errs' (log ++ calls)

/-- Embedding of the `while True` loop of `build_xsd_map`: run a pass; stop
when nothing was deferred; otherwise set `errors_counter` to the deferred
count, narrow the working set to the deferred keys and run another pass.  The
fuel argument is a model artefact; the bound chosen by `buildXsdMap` is proved
sufficient (the `fuelOut` marker is unreachable). -/
def buildLoop (f : Factory) (tag : Nat) :
    Nat → List QName → Nat → GMap → List CallRec →
    Except BuildFail (GMap × List CallRec)
  | 0, ws, ec, _m, _log => .error ⟨.fuelOut, ws, [], ec, []⟩
  | fuel + 1, ws, ec, m, log =>
    match runPass f tag ec ws m [] [] log with
    | .error fail => .error fail
    | .ok (m', missing, log') =>
      if missing.isEmpty then .ok (m', log')
      else buildLoop f tag fuel missing missing.length m' log'

/-- Embedding of the function produced by `create_builder_function`:
fixed-point resolution of a component map for one target tag.  The initial
working set is the key set of the map (the source iterates a Python set of the
keys; the model fixes the map's own key order) and the initial
`errors_counter` is zero. -/
def buildXsdMap (f : Factory) (tag : Nat) (m : GMap) :
    Except BuildFail (GMap × List CallRec) :=
  buildLoop f tag (m.length + 2) (keysOf m) 0 m []

/-! ## Declaration Loader (`create_load_function` / `load_xsd_globals`) -/

/-- Tag constants of the schema vocabulary (`XSD_*_TAG`); only their
distinctness matters. -/
def XSDRedefineTag : Nat := 1

/-- The `XSD_SIMPLE_TYPE_TAG` constant. -/
def XSDSimpleTypeTag : Nat := 2

/-- The `XSD_COMPLEX_TYPE_TAG` constant. -/
def XSDComplexTypeTag : Nat := 3

/-- The `XSD_ATTRIBUTE_TAG` constant. -/
def XSDAttributeTag : Nat := 4

/-- The `XSD_ATTRIBUTE_GROUP_TAG` constant. -/
def XSDAttributeGroupTag : Nat := 5

/-- The `XSD_GROUP_TAG` constant. -/
def XSDGroupTag : Nat := 6

/-- The `XSD_ELEMENT_TAG` constant. -/
def XSDElementTag : Nat := 7

/-- One staged redefinition: qualified name and raw declaration pair. -/
abbrev Redef := QName × Link

/-- Embedding of the insertion logic of `load_xsd_globals`
(`try: append / except KeyError: assign tuple / except AttributeError: wrap in
a list`): a fresh key gets a raw single, a raw single or an instance becomes a
two-cell chain, a chain gets the link appended. -/
def insertDecl (m : GMap) (q : QName) (l : Link) : GMap :=
  match lookupG m q with
  | none => updateG m q (.single l)
  | some (.inst i) => updateG m q (.chain (.inl i) l [])
  | some (.single l0) => updateG m q (.chain (.inr l0) l [])
  | some (.chain h l1 rest) => updateG m q (.chain h l1 (rest ++ [l]))

/-- Top-level declarations of one schema for a loader keyed to `tag`
(`filter_function(schema.root)`). -/
def schemaDecls (tag : Nat) (s : Schema) : List Elem :=
  iterfindByTag tag s.root none

/-- Staged redefinitions of one schema: the children matching the loader's tag
of each redefine block of the schema root, keyed against the schema's target
namespace. -/
def schemaRedefs (tag : Nat) (s : Schema) : List Redef :=
  (iterfindByTag XSDRedefineTag s.root none).flatMap
    (fun blk => (iterfindByTag tag blk none).map
      (fun child => (getQname s.targetNamespace child.nameAttr, (child, s))))

/-- Embedding of the first phase of `load_xsd_globals`: scan every
not-yet-built schema, staging its redefinitions and inserting its top-level
declarations by qualified name. -/
def loadScan (tag : Nat) : List Schema → GMap → List Redef → GMap × List Redef
  | [], m, reds => (m, reds)
  | s :: ss, m, reds =>
    if s.built then loadScan tag ss m reds
    else
      loadScan tag ss
        ((schemaDecls tag s).foldl
          (fun acc e => insertDecl acc (getQname s.targetNamespace e.nameAttr) (e, s)) m)
        (reds ++ schemaRedefs tag s)

/-- Embedding of the second phase of `load_xsd_globals`: append every staged
redefinition to its key's entry; a staged qualified name with no existing
entry raises the "not a redefinition!" structural parse error. -/
def applyRedefs : GMap → List Redef → Except BErr GMap
  | m, [] => .ok m
  | m, (q, l) :: rs =>
    match lookupG m q with
    | none => .error (.noRedef l.1.eid)
    | some _ => applyRedefs (insertDecl m q l) rs

/-- Embedding of the function produced by `create_load_function`. -/
def loadXsdGlobals (tag : Nat) (m : GMap) (schemas : List Schema) : Except BErr GMap :=
  applyRedefs (loadScan tag schemas m []).1 (loadScan tag schemas m []).2

/-! ## Global Registry (`XsdGlobals`) -/

/-- Model of the validator configuration bound to a registry: the built-in
types seeded into the types map and the factory functions found in the
forwarded options, each taking the `parse_local_groups` flag of the second
builder round. -/
structure Validator where
  builtinTypes : GMap
  simpleTypeFactory : Bool → Factory
  complexTypeFactory : Bool → Factory
  attributeFactory : Bool → Factory
  attributeGroupFactory : Bool → Factory
  groupFactory : Bool → Factory
  elementFactory : Bool → Factory

/-- Cache key of a namespace view: map name, namespace, key shape. -/
abbrev ViewKey := String × String × Bool

/-- Namespace view: a projection of a component map whose keys are either full
qualified names or local names. -/
abbrev View := List ((QName ⊕ String) × Entry)

/-- Embedding of the view computation of `get_globals`: the entries whose
key's namespace equals the requested one, keyed by full qualified name or by
local name.  (The source builds a Python dict, where equal local names would
collapse last-wins; the association list keeps all projected entries.) -/
def computeView (m : GMap) (ns : String) (fqnKeys : Bool) : View :=
  if fqnKeys then
    (m.filter (fun p => getNamespaceOf p.1 == ns)).map (fun p => (.inl p.1, p.2))
  else
    (m.filter (fun p => getNamespaceOf p.1 == ns)).map
      (fun p => (.inr (localNameOf p.1), p.2))

/-- First cached view stored under a cache key. -/
def lookupView : List (ViewKey × View) → ViewKey → Option View
  | [], _ => none
  | (k, v) :: rest, q => if k = q then some v else lookupView rest q

/-- Model of `XsdGlobals`: the six component maps, the view cache and the
registered schemas in iteration order (the namespace and resource indices are
kept flattened, since only the `iter_schemas` order is observable here). -/
structure XsdGlobalsSt where
  validator : Validator
  types : GMap
  attributes : GMap
  attributeGroups : GMap
  groups : GMap
  elements : GMap
  baseElements : GMap
  viewCache : List (ViewKey × View)
  schemas : List Schema

/-- Embedding of `getattr(self, map_name)` for the component maps; an unknown
name fails (an uncaught attribute error in the source). -/
def XsdGlobalsSt.mapOf (g : XsdGlobalsSt) (mapName : String) : Option GMap :=
  if mapName = "types" then some g.types
  else if mapName = "attributes" then some g.attributes
  else if mapName = "attribute_groups" then some g.attributeGroups
  else if mapName = "groups" then some g.groups
  else if mapName = "elements" then some g.elements
  else if mapName = "base_elements" then some g.baseElements
  else none

/-- Embedding of `XsdGlobals.get_globals`: serve the cached view when the
(map name, namespace, key-shape) triple is cached, otherwise compute the view
from the current map, cache it and return it. -/
def XsdGlobalsSt.getGlobals (g : XsdGlobalsSt) (mapName ns : String) (fqnKeys : Bool) :
    Except Unit (View × XsdGlobalsSt) :=
  match lookupView g.viewCache (mapName, ns, fqnKeys) with
  | some v => .ok (v, g)
  | none =>
    match g.mapOf mapName with
    | none => .error ()
    | some m =>
      let v := computeView m ns fqnKeys
      .ok (v, { g with viewCache := g.viewCache ++ [((mapName, ns, fqnKeys), v)] })

/-- Embedding of `XsdGlobals.clear`: empty the six maps, reinstate the
built-in types, empty the view cache, reset every schema's `built` flag, and
optionally forget the registered schemas. -/
def XsdGlobalsSt.clear (g : XsdGlobalsSt) (removeSchemas : Bool) : XsdGlobalsSt :=
  { g with
    types := g.validator.builtinTypes
    attributes := []
    attributeGroups := []
    groups := []
    elements := []
    baseElements := []
    viewCache := []
    schemas :=
      if removeSchemas then []
      else g.schemas.map (fun s => { s with built := false }) }

/-- Dict update of a component map by another (`dst.update(src)`): every
binding of the source is stored in order. -/
def updateAll (dst src : GMap) : GMap :=
  src.foldl (fun acc p => updateG acc p.1 p.2) dst

/-- Embedding of the base-elements expansion of `build()`: every element
reachable through `iter_elements()` of every model-group value is stored under
its name; a group value that is not a built instance has no `iter_elements`
and crashes the source with an uncaught attribute error, surfaced here as an
error value. -/
def expandGroups : GMap → GMap → Except BuildFail GMap
  | dst, [] => .ok dst
  | dst, (_, Entry.inst i) :: rest =>
    expandGroups (i.subElems.foldl (fun acc e => updateG acc e.nameOf (.inst e)) dst) rest
  | _, (_, _) :: _ => .error ⟨.attrCrash, [], [], 0, []⟩

/-- Lift a loader error into a builder failure value (ghost fields empty). -/
def liftLoad (r : Except BErr GMap) : Except BuildFail GMap :=
  match r with
  | .ok m => .ok m
  | .error e => .error ⟨e, [], [], 0, []⟩

/-- Embedding of `XsdGlobals.build`: run Loader then Builder per kind in the
source's order over the global declarations, rerun the Builder for groups,
complex types and elements with the `parse_local_groups` flag, recompute the
base-elements map, and only then mark every registered schema built. -/
def XsdGlobalsSt.build (g : XsdGlobalsSt) : Except BuildFail XsdGlobalsSt := do
  let v := g.validator
  let types1 ← liftLoad (loadXsdGlobals XSDSimpleTypeTag g.types g.schemas)
  let r1 ← buildXsdMap (v.simpleTypeFactory false) XSDSimpleTypeTag types1
  let attrs1 ← liftLoad (loadXsdGlobals XSDAttributeTag g.attributes g.schemas)
  let r2 ← buildXsdMap (v.attributeFactory false) XSDAttributeTag attrs1
  let ags1 ← liftLoad (loadXsdGlobals XSDAttributeGroupTag g.attributeGroups g.schemas)
  let r3 ← buildXsdMap (v.attributeGroupFactory false) XSDAttributeGroupTag ags1
  let types3 ← liftLoad (loadXsdGlobals XSDComplexTypeTag r1.1 g.schemas)
  let r4 ← buildXsdMap (v.complexTypeFactory false) XSDComplexTypeTag types3
  let elems1 ← liftLoad (loadXsdGlobals XSDElementTag g.elements g.schemas)
  let r5 ← buildXsdMap (v.elementFactory false) XSDElementTag elems1
  let groups1 ← liftLoad (loadXsdGlobals XSDGroupTag g.groups g.schemas)
  let r6 ← buildXsdMap (v.groupFactory false) XSDGroupTag groups1
  let r7 ← buildXsdMap (v.groupFactory true) XSDGroupTag r6.1
  let r8 ← buildXsdMap (v.complexTypeFactory true) XSDComplexTypeTag r4.1
  let r9 ← buildXsdMap (v.elementFactory true) XSDElementTag r5.1
  let base2 ← expandGroups (updateAll g.baseElements r9.1) r7.1
  pure { g with
    types := r8.1
    attributes := r2.1
    attributeGroups := r3.1
    groups := r7.1
    elements := r9.1
    baseElements := base2
    schemas := g.schemas.map (fun s => { s with built := true }) }

/-! ## Predicates and observation helpers used by the statements -/

/-- Errors that can only originate from the no-progress (exhaustion) raise of
`build_xsd_map`: a re-raised lookup failure or the generic parse error naming
the stuck element. -/
def BErr.isExhaustKind : BErr → Bool
  | .lookupE _ => true
  | .exhaustGeneric _ => true
  | _ => false

/-- Every value of a component map is a built instance. -/
def AllInst (m : GMap) : Prop := ∀ p ∈ m, p.2.isInst = true

/-- Every pending declaration link of a component map carries the given tag. -/
def PendTag (m : GMap) (tag : Nat) : Prop :=
  ∀ p ∈ m, ∀ l ∈ p.2.pendingLinks, l.1.tag = tag

/-- All six maps of a registry hold only built instances. -/
def AllMapsInst (g : XsdGlobalsSt) : Prop :=
  AllInst g.types ∧ AllInst g.attributes ∧ AllInst g.attributeGroups
    ∧ AllInst g.groups ∧ AllInst g.elements ∧ AllInst g.baseElements

/-- The sequence of factory invocations that resolves a chain for key `q`:
one invocation per link, in link order, the first receiving `prev`, each later
one receiving the instance produced by the one before it, and the final
instance being the last result. -/
inductive Threaded (f : Factory) (q : QName) : List Link → Option Inst →
    List CallRec → Inst → Prop where
  | last {e : Elem} {s : Schema} {prev : Option Inst} {rq : QName} {i : Inst} :
      f e s prev = .ok rq i →
      Threaded f q [(e, s)] prev [⟨q, e, s, prev⟩] i
  | step {e : Elem} {s : Schema} {prev : Option Inst} {rq : QName} {i ilast : Inst}
      {tl : List Link} {lg : List CallRec} :
      f e s prev = .ok rq i →
      Threaded f q tl (some i) lg ilast →
      Threaded f q ((e, s) :: tl) prev (⟨q, e, s, prev⟩ :: lg) ilast

/-- Step-3 originals staged for one key by the loader: the matching top-level
declarations of every not-yet-built schema, in schema scan order. -/
def origLinks (tag : Nat) (q : QName) (ss : List Schema) : List Link :=
  (ss.filter (fun s => !s.built)).flatMap
    (fun s => (schemaDecls tag s).filterMap
      (fun e => if getQname s.targetNamespace e.nameAttr = q then some ((e, s) : Link)
                else none))

/-- Step-4 redefinitions staged for one key by the loader, in staging order. -/
def redefLinksOf (tag : Nat) (q : QName) (ss : List Schema) : List Link :=
  ((ss.filter (fun s => !s.built)).flatMap (schemaRedefs tag)).filterMap
    (fun r => if r.1 = q then some r.2 else none)

/-- The entry holding a given sequence of raw links: none for the empty
sequence, a raw single for one link, a chain otherwise. -/
def entryOfLinks : List Link → Option Entry
  | [] => none
  | [l] => some (.single l)
  | l0 :: l1 :: rest => some (.chain (.inr l0) l1 rest)

/-! ## Concrete data used by witnesses and counterexamples -/

/-- Root element of the witness schemas. -/
def rootW : Elem := .mk 0 "r" 0 []

/-- Witness schema (not built). -/
def schW : Schema := ⟨0, "u", false, rootW⟩

/-- Witness schema, already built. -/
def schWB : Schema := ⟨0, "u", true, rootW⟩

/-- Witness declaration element with tag 5. -/
def elemW : Elem := .mk 5 "a" 10 []

/-- Second witness declaration element with tag 5. -/
def elemW1 : Elem := .mk 5 "a" 11 []

/-- Witness qualified name. -/
def qW : QName := ("u", "a")

/-- Factory that always signals an undefined reference. -/
def fLookupW : Factory := fun _ _ _ => .lookupErr 7

/-- Factory that always succeeds with name `qW`, encoding the element identity
and the previous instance's identity into the result identity. -/
def fOkW : Factory := fun e _ p =>
  .ok qW (Inst.mk (e.eid * 100 + (match p with | some i => i.iid | none => 0)) qW
    (some e) schW [])

/-- One-key map holding a raw single declaration. -/
def mSingleW : GMap := [(qW, .single (elemW, schW))]

/-- Failure value produced by exhausting `mSingleW` under `fLookupW`. -/
def failW : BuildFail := ⟨.lookupE 7, [], [qW], 1, [.lookupE 7]⟩

/-- Already-resolved witness instance whose element tag matches the target and
whose schema is not built. -/
def instW : Inst := .mk 1 qW (some elemW) schW []

/-- One-key map holding the resolved instance `instW`. -/
def mInstW : GMap := [(qW, .inst instW)]

/-- Witness data element with tag `"a"` and no children. -/
def dW : DataElement := .mk "a" none none .nil

/-- Witness child element for the scanner: tag 5. -/
def scanChildW : Elem := .mk 5 "c" 1 []

/-- Witness document whose own tag is 99 but which contains one element of
tag 5 reachable through the path query. -/
def scanDocW : Elem := .mk 99 "d" 0 [(5, [scanChildW])]

/-- Minimal validator for registry witnesses. -/
def validatorW : Validator :=
  ⟨[], fun _ => fOkW, fun _ => fOkW, fun _ => fOkW, fun _ => fOkW, fun _ => fOkW,
    fun _ => fOkW⟩

/-- Registry witness state: empty maps, one cached-view interaction target. -/
def regW : XsdGlobalsSt :=
  ⟨validatorW, [(qW, .inst instW)], [], [], [], [], [], [], []⟩

/-- View computed for the types map of `regW` over namespace `"u"`. -/
def viewW : View := [(.inl qW, .inst instW)]

/-- The `regW` state after one cache-filling `get_globals` call. -/
def regWCached : XsdGlobalsSt :=
  { regW with viewCache := [(("types", "u", true), viewW)] }

/-- Instance produced by `fOkW` on `elemW` with previous instance `instW`. -/
def instW2 : Inst := .mk 1001 qW (some elemW) schW []

/-- Resolved witness instance owned by an already-built schema. -/
def instWB : Inst := .mk 1 qW (some elemW) schWB []

/-- Registry with no schemas and empty maps. -/
def regEmptyW : XsdGlobalsSt := ⟨validatorW, [], [], [], [], [], [], [], []⟩

/-- Redefine child declaration with tag 5. -/
def redefChildW : Elem := .mk 5 "a" 20 []

/-- Redefine block containing `redefChildW`. -/
def redefBlkW : Elem := .mk 1 "blk" 21 [(5, [redefChildW])]

/-- Schema root carrying only a redefine block (no original declaration). -/
def rootOrphW : Elem := .mk 0 "r" 30 [(1, [redefBlkW])]

/-- Schema staging an orphan redefinition. -/
def schOrphW : Schema := ⟨2, "u", false, rootOrphW⟩

/-- Schema root with two originals for `qW` and one redefinition of it. -/
def rootFullW : Elem := .mk 0 "r" 22 [(1, [redefBlkW]), (5, [elemW, elemW1])]

/-- Schema declaring a three-link chain for `qW`. -/
def schFullW : Schema := ⟨1, "u", false, rootFullW⟩

/-- The three chain links staged by `schFullW` for `qW`, in chain order. -/
def linksW : List Link :=
  [(elemW, schFullW), (elemW1, schFullW), (redefChildW, schFullW)]

/-- Component map produced by loading `schFullW` for tag 5. -/
def mChainW : GMap :=
  [(qW, .chain (.inr (elemW, schFullW)) (elemW1, schFullW) [(redefChildW, schFullW)])]

/-- First instance produced while resolving the witness chain. -/
def i1W : Inst := .mk 1000 qW (some elemW) schW []

/-- Second instance produced while resolving the witness chain. -/
def i2W : Inst := .mk 2100 qW (some elemW1) schW []

/-- Final instance produced while resolving the witness chain. -/
def i3W : Inst := .mk 4100 qW (some redefChildW) schW []

/-- Invocation log of resolving the witness chain: one threaded call per link. -/
def lgW : List CallRec :=
  [⟨qW, elemW, schFullW, none⟩, ⟨qW, elemW1, schFullW, some i1W⟩,
   ⟨qW, redefChildW, schFullW, some i2W⟩]

/-- Map state after resolving the witness chain. -/
def m2W : GMap := [(qW, .inst i3W)]

/-- Factory invocations recorded by one key step. -/
def KeyStep.callsOf : KeyStep → List CallRec
  | .skip _ cs => cs
  | .store _ cs => cs
  | .deferred _ _ _ cs => cs
  | .fatal _ cs => cs

/-! # Theorems -/

/-! ## Data element iteration (C9) and type binding (C10) -/

mutual
/-- Iterating with the wildcard tag yields the whole preorder. -/
theorem iter_wild (d : DataElement) : d.iter (some "*") = d.preorder := by
  cases d with
  | mk tg xe xt cs =>
    simp [DataElement.iter, DataElement.preorder, iterAll_wild cs]
/-- List form of `iter_wild`. -/
theorem iterAll_wild (l : DEList) : l.iterAll (some "*") = l.preorderAll := by
  cases l with
  | nil => simp [DEList.iterAll, DEList.preorderAll]
  | cons d rest =>
    simp [DEList.iterAll, DEList.preorderAll, iter_wild d, iterAll_wild rest]
end

/-- Iterating with an absent tag behaves as the wildcard. -/
theorem iter_none_eq_wild (d : DataElement) : d.iter none = d.iter (some "*") := by
  cases d with
  | mk tg xe xt cs => rfl

mutual
/-- Iterating with a non-wildcard tag yields exactly the preorder filtered to
elements of that tag. -/
theorem iter_filt (d : DataElement) (s : String) (hs : s ≠ "*") :
    d.iter (some s) = d.preorder.filter (fun x => x.tag == s) := by
  cases d with
  | mk tg xe xt cs =>
    simp only [DataElement.iter, DataElement.preorder, List.filter_cons,
      iterAll_filt cs s hs, DataElement.tag]
    by_cases h : s = tg
    · simp [h, hs]
    · have h2 : ¬(tg == s) = true := by
        simp [beq_iff_eq]
        exact fun hh => h hh.symm
      simp [h, hs, h2]
/-- List form of `iter_filt`. -/
theorem iterAll_filt (l : DEList) (s : String) (hs : s ≠ "*") :
    l.iterAll (some s) = l.preorderAll.filter (fun x => x.tag == s) := by
  cases l with
  | nil => simp [DEList.iterAll, DEList.preorderAll]
  | cons d rest =>
    simp [DEList.iterAll, DEList.preorderAll, iter_filt d s hs,
      iterAll_filt rest s hs, List.filter_append]
end

/-- C9 (amended): `DataElement.iter` yields the element itself and then its
descendants in depth-first order, filtered to elements whose tag equals the
argument; an absent tag and the wildcard `'*'` match every element, while any
other string — including the empty string — matches only elements whose tag
equals it. -/
theorem c9_iter_depth_first :
    (∀ d : DataElement, d.iter none = d.preorder)
    ∧ (∀ d : DataElement, d.iter (some "*") = d.preorder)
    ∧ (∀ (d : DataElement) (s : String), s ≠ "*" →
        d.iter (some s) = d.preorder.filter (fun x => x.tag == s)) :=
  ⟨fun d => (iter_none_eq_wild d).trans (iter_wild d), iter_wild,
    fun d s hs => iter_filt d s hs⟩

/-- C9 witness: the filtered branch of `c9_iter_depth_first` evaluated at a
concrete element and tag. -/
theorem c9_iter_depth_first_witness :
    ("a" : String) ≠ "*"
    ∧ dW.iter (some "a") = dW.preorder.filter (fun x => x.tag == "a") :=
  ⟨by decide, c9_iter_depth_first.2.2 dW "a" (by decide)⟩

/-- C9 counterexample: the claim says the empty string matches every element,
but iterating a one-node tree tagged `"a"` with the empty string yields
nothing, although the tree's preorder contains the node. -/
theorem c9_empty_string_counterexample :
    dW.iter (some "") = [] ∧ dW.preorder = [dW] ∧ dW.tag ≠ "" := by
  refine ⟨rfl, rfl, by decide⟩

/-- C10: the `xsd_type` property returns the explicit override when set,
otherwise the bound schema element's type, otherwise `None`; and assigning it
changes only the private override, never the element binding (nor the tag or
the children). -/
theorem c10_xsd_type_property :
    (∀ (d : DataElement) (t : XsdTypeB), d.xsdTypeRaw = some t → d.xsdType = some t)
    ∧ (∀ d : DataElement, d.xsdTypeRaw = none →
        d.xsdType = d.xsdElement.map XsdElemB.typeOf)
    ∧ (∀ (d : DataElement) (t : Option XsdTypeB),
        (d.setXsdType t).xsdTypeRaw = t
          ∧ (d.setXsdType t).xsdElement = d.xsdElement
          ∧ (d.setXsdType t).tag = d.tag
          ∧ (d.setXsdType t).children = d.children) := by
  refine ⟨?_, ?_, ?_⟩
  · intro d t h
    simp [DataElement.xsdType, h]
  · intro d h
    cases d with
    | mk tg xe xt cs =>
      cases xe <;>
        simp_all [DataElement.xsdType, DataElement.xsdTypeRaw, DataElement.xsdElement]
  · intro d t
    cases d with
    | mk tg xe xt cs =>
      simp [DataElement.setXsdType, DataElement.xsdTypeRaw, DataElement.xsdElement,
        DataElement.tag, DataElement.children]

/-- C10 witness: the override branch of `c10_xsd_type_property` at a concrete
element. -/
theorem c10_xsd_type_property_witness :
    (DataElement.mk "a" none (some ⟨3⟩) .nil).xsdTypeRaw = some ⟨3⟩
    ∧ (DataElement.mk "a" none (some ⟨3⟩) .nil).xsdType = some ⟨3⟩ :=
  ⟨rfl, c10_xsd_type_property.1 (DataElement.mk "a" none (some ⟨3⟩) .nil) ⟨3⟩ rfl⟩

/-! ## Tag Scanner (C3) -/

/-- C3 (amended): every element yielded by the single-document scanner has the
target tag and is drawn from the path-query results; for a list of documents
the scanner yields the containing document itself — not a pair — once per
matching element found inside it, so every yielded item is a member of the
input list and the output length is the total number of matches. -/
theorem c3_tag_scanner :
    (∀ (tag : Nat) (doc : Elem) (path : Option Nat) (e : Elem),
        e ∈ iterfindByTag tag doc path →
          e.tag = tag ∧ e ∈ doc.iterfind (path.getD tag))
    ∧ (∀ (tag : Nat) (docs : List Elem) (path : Option Nat) (x : Elem),
        x ∈ iterfindByTagList tag docs path → x ∈ docs)
    ∧ (∀ (tag : Nat) (docs : List Elem) (path : Option Nat),
        (iterfindByTagList tag docs path).length
          = (docs.map (fun d => (iterfindByTag tag d path).length)).sum) := by
  refine ⟨?_, ?_, ?_⟩
  · intro tag doc path e h
    have h' := List.mem_filter.mp h
    exact ⟨by simpa using h'.2, h'.1⟩
  · intro tag docs path x h
    obtain ⟨d, hd, hx⟩ := List.mem_flatMap.mp h
    obtain ⟨_, _, rfl⟩ := List.mem_map.mp hx
    exact hd
  · intro tag docs path
    induction docs with
    | nil => rfl
    | cons d rest ih =>
      simp only [iterfindByTagList, List.flatMap_cons, List.length_append,
        List.length_map, List.map_cons, List.sum_cons] at ih ⊢
      rw [ih]

/-- C3 witness: the single-document branch of `c3_tag_scanner` evaluated at a
concrete document. -/
theorem c3_tag_scanner_witness :
    scanChildW.tag = 5 ∧ scanChildW ∈ scanDocW.iterfind ((none : Option Nat).getD 5) :=
  c3_tag_scanner.1 5 scanDocW none scanChildW (List.Mem.head _)

/-- C3 counterexample: on a list of documents the scanner yields the
containing document itself, not a pair of a matching element and the
document — here the single yielded item is the document, whose own tag is 99,
not the target tag 5. -/
theorem c3_list_counterexample :
    iterfindByTagList 5 [scanDocW] none = [scanDocW]
    ∧ scanDocW.tag = 99 ∧ (99 : Nat) ≠ 5 :=
  ⟨rfl, rfl, by decide⟩

/-! ## Registry view cache (C8) -/

/-- Appending a fresh cache binding makes it visible to the lookup. -/
theorem lookupView_append_self (c : List (ViewKey × View)) (k : ViewKey) (v : View)
    (h : lookupView c k = none) : lookupView (c ++ [(k, v)]) k = some v := by
  induction c with
  | nil => simp [lookupView]
  | cons p rest ih =>
    by_cases hk : p.1 = k
    · simp [lookupView, hk] at h
    · simp only [lookupView, hk] at h
      simpa [lookupView, hk] using ih h

/-- C8: a repeated `get_globals` call with the same (map name, namespace,
key-shape) arguments is served from the view cache — it returns the same view
and leaves the registry unchanged; `clear()` empties the view cache, and a
`get_globals` call after `clear()` recomputes the view from the current
(post-clear) map and caches it. -/
theorem c8_get_globals_cache :
    (∀ (g : XsdGlobalsSt) (mn ns : String) (fq : Bool) (v : View) (g1 : XsdGlobalsSt),
        g.getGlobals mn ns fq = .ok (v, g1) → g1.getGlobals mn ns fq = .ok (v, g1))
    ∧ (∀ (g : XsdGlobalsSt) (b : Bool), (g.clear b).viewCache = [])
    ∧ (∀ (g : XsdGlobalsSt) (b : Bool) (mn ns : String) (fq : Bool) (m : GMap),
        (g.clear b).mapOf mn = some m →
        (g.clear b).getGlobals mn ns fq
          = .ok (computeView m ns fq,
              { g.clear b with
                viewCache := [((mn, ns, fq), computeView m ns fq)] })) := by
  refine ⟨?_, ?_, ?_⟩
  · intro g mn ns fq v g1 h
    unfold XsdGlobalsSt.getGlobals at h ⊢
    cases hlv : lookupView g.viewCache (mn, ns, fq) with
    | some v0 =>
      rw [hlv] at h
      simp only [Except.ok.injEq, Prod.mk.injEq] at h
      obtain ⟨rfl, rfl⟩ := h
      rw [hlv]
    | none =>
      rw [hlv] at h
      cases hm : g.mapOf mn with
      | none => rw [hm] at h; exact absurd h (by simp)
      | some m =>
        rw [hm] at h
        simp only [Except.ok.injEq, Prod.mk.injEq] at h
        obtain ⟨rfl, rfl⟩ := h
        rw [lookupView_append_self _ _ _ hlv]
  · intro g b
    rfl
  · intro g b mn ns fq m hm
    unfold XsdGlobalsSt.getGlobals
    have hlv : lookupView (g.clear b).viewCache (mn, ns, fq) = none := rfl
    rw [hlv, hm]
    simp [XsdGlobalsSt.clear]

/-- C8 witness: `c8_get_globals_cache` evaluated on a concrete registry — the
first call fills the cache, the second is served from it; after `clear()` the
cache is empty and the call recomputes from the (now reset) types map. -/
theorem c8_get_globals_cache_witness :
    regW.getGlobals "types" "u" true = .ok (viewW, regWCached)
    ∧ regWCached.getGlobals "types" "u" true = .ok (viewW, regWCached)
    ∧ (regW.clear false).viewCache = []
    ∧ (regW.clear false).mapOf "types" = some []
    ∧ (regW.clear false).getGlobals "types" "u" true
      = .ok (computeView [] "u" true,
          { regW.clear false with viewCache := [(("types", "u", true), computeView [] "u" true)] }) :=
  ⟨rfl, c8_get_globals_cache.1 regW "types" "u" true viewW regWCached rfl,
    c8_get_globals_cache.2.1 regW false, rfl,
    c8_get_globals_cache.2.2 regW false "types" "u" true [] rfl⟩

/-! ## Builder pass behaviour (C4, C1) -/

/-- C4 (amended): in a pass of the Declaration Builder, an entry that is
already a resolved instance is skipped — with no factory invocation — exactly
when its exposed element is absent, or that element's tag differs from the
target tag, or its owning schema is built; otherwise the source re-invokes the
factory on the resolved instance (see the counterexample). -/
theorem c4_resolved_entry_skip (f : Factory) (tag : Nat) (q : QName) (i : Inst)
    (h : i.elem = none ∨ (∃ e, i.elem = some e ∧ e.tag ≠ tag) ∨ i.schema.built = true) :
    processKey f tag q (some (.inst i)) = .skip none [] := by
  rw [processKey.eq_2]
  rcases h with h | ⟨e, he, ht⟩ | h
  · rw [h]
  · rw [he]
    simp [ht]
  · cases hel : i.elem with
    | none => rfl
    | some e => simp [h]

/-- C4 witness: `c4_resolved_entry_skip` on a resolved instance owned by an
already-built schema. -/
theorem c4_resolved_entry_skip_witness :
    (instWB.elem = none ∨ (∃ e, instWB.elem = some e ∧ e.tag ≠ 5)
      ∨ instWB.schema.built = true)
    ∧ processKey fOkW 5 qW (some (.inst instWB)) = .skip none [] :=
  ⟨.inr (.inr rfl), c4_resolved_entry_skip fOkW 5 qW instWB (.inr (.inr rfl))⟩

/-- C4 counterexample: a map whose only entry is already a resolved instance
whose element tag equals the target and whose schema is not built — the
builder's log shows one factory invocation for it (with the instance passed as
the previous-instance argument), contradicting the claim that resolved entries
are always skipped. -/
theorem c4_counterexample :
    buildXsdMap fOkW 5 mInstW
      = .ok ([(qW, .inst instW2)], [⟨qW, elemW, schW, some instW⟩])
    ∧ ([⟨qW, elemW, schW, some instW⟩] : List CallRec) ≠ [] :=
  ⟨rfl, by simp⟩

/-- A fatal step of `processKey` is always the "wrong result name" error. -/
theorem walkLinks_fatal_wrongName (f : Factory) (tag : Nat) (q : QName)
    (l1 : Link) (rest : List Link) :
    ∀ (pending : List Link) (prev : Option Inst) (headNow : Sum Inst Link)
      (lastRes : Option (QName × Inst × Elem)) (calls : List CallRec)
      (e : BErr) (cs : List CallRec),
      walkLinks f tag q l1 rest prev headNow pending lastRes calls = .fatal e cs →
      ∃ rq, e = .wrongName rq q := by
  intro pending
  induction pending with
  | nil =>
    intro prev headNow lastRes calls e cs h
    cases lastRes with
    | none => exact absurd h (by simp [walkLinks])
    | some r =>
      obtain ⟨rq, i, e'⟩ := r
      simp only [walkLinks] at h
      by_cases ht : e'.tag ≠ tag
      · rw [if_pos ht] at h
        exact absurd h (by simp)
      · rw [if_neg ht] at h
        by_cases hq : rq ≠ q
        · rw [if_pos hq] at h
          exact ⟨rq, ((KeyStep.fatal.inj h).1).symm⟩
        · rw [if_neg hq] at h
          exact absurd h (by simp)
  | cons hd tl ih =>
    intro prev headNow lastRes calls e cs h
    obtain ⟨e', s'⟩ := hd
    simp only [walkLinks] at h
    by_cases ht : e'.tag ≠ tag
    · rw [if_pos ht] at h
      exact absurd h (by simp)
    · rw [if_neg ht] at h
      cases hf : f e' s' prev with
      | ok rq i =>
        simp only [hf] at h
        exact ih _ _ _ _ e cs h
      | typeErr msg => simp only [hf] at h; exact absurd h (by simp)
      | lookupErr msg => simp only [hf] at h; exact absurd h (by simp)

/-- Entry-level form of `walkLinks_fatal_wrongName`. -/
theorem processKey_fatal_wrongName (f : Factory) (tag : Nat) (q : QName)
    (ent : Option Entry) (e : BErr) (cs : List CallRec)
    (h : processKey f tag q ent = .fatal e cs) : ∃ rq, e = .wrongName rq q := by
  match ent with
  | none => simp [processKey] at h
  | some (Entry.inst i) =>
    simp only [processKey] at h
    cases hel : i.elem with
    | none => simp only [hel] at h; exact absurd h (by simp)
    | some e' =>
      simp only [hel] at h
      by_cases hc : e'.tag ≠ tag ∨ i.schema.built = true
      · rw [if_pos hc] at h
        exact absurd h (by simp)
      · rw [if_neg hc] at h
        cases hf : f e' i.schema (some i) with
        | ok rq x =>
          simp only [hf] at h
          by_cases ht : e'.tag ≠ tag
          · rw [if_pos ht] at h
            exact absurd h (by simp)
          · rw [if_neg ht] at h
            by_cases hq : rq ≠ q
            · rw [if_pos hq] at h
              exact ⟨rq, ((KeyStep.fatal.inj h).1).symm⟩
            · rw [if_neg hq] at h
              exact absurd h (by simp)
        | typeErr msg => simp only [hf] at h; exact absurd h (by simp)
        | lookupErr msg => simp only [hf] at h; exact absurd h (by simp)
  | some (Entry.single (e', s')) =>
    simp only [processKey] at h
    by_cases ht : e'.tag ≠ tag
    · rw [if_pos ht] at h
      exact absurd h (by simp)
    · rw [if_neg ht] at h
      cases hf : f e' s' none with
      | ok rq x =>
        simp only [hf] at h
        rw [if_neg ht] at h
        by_cases hq : rq ≠ q
        · rw [if_pos hq] at h
          exact ⟨rq, ((KeyStep.fatal.inj h).1).symm⟩
        · rw [if_neg hq] at h
          exact absurd h (by simp)
      | typeErr msg => simp only [hf] at h; exact absurd h (by simp)
      | lookupErr msg => simp only [hf] at h; exact absurd h (by simp)
  | some (Entry.chain (.inr l0) la rest) =>
    exact walkLinks_fatal_wrongName f tag q la rest _ _ _ _ _ e cs h
  | some (Entry.chain (.inl i) la rest) =>
    exact walkLinks_fatal_wrongName f tag q la rest _ _ _ _ _ e cs h


/-- If a pass raises an exhaustion-kind error then no key of the pass was left
unprocessed, the deferred count equals the entry `errors_counter`, and the
raised error is the first recorded lookup failure when one was recorded, else
the generic parse error.  The arithmetic hypothesis holds at every entry of
the loop: the first pass runs with `errors_counter = 0` and every later pass
with `errors_counter` equal to its working-set size. -/
theorem runPass_exhaust (f : Factory) (tag : Nat) (ec : Nat) :
    ∀ (ws : List QName) (m : GMap) (missing : List QName) (errs : List BErr)
      (log : List CallRec) (F : BuildFail),
      runPass f tag ec ws m missing errs log = .error F →
      F.err.isExhaustKind = true →
      (missing.length + ws.length ≤ ec ∨ ec = 0) →
      F.pendingKeys = [] ∧ F.deferredKeys.length = ec ∧ F.ecAt = ec
        ∧ (F.recorded = [] → ∃ eid, F.err = BErr.exhaustGeneric eid)
        ∧ (∀ e rest, F.recorded = e :: rest → F.err = e) := by
  intro ws
  induction ws with
  | nil =>
    intro m missing errs log F h hex hinv
    exact absurd h (by simp [runPass])
  | cons q ws ih =>
    intro m missing errs log F h hex hinv
    simp only [runPass] at h
    cases hpk : processKey f tag q (lookupG m q) with
    | skip upd calls =>
      rw [hpk] at h
      refine ih _ _ _ _ F h hex ?_
      rcases hinv with hl | hr
      · exact .inl (by simp at hl ⊢; omega)
      · exact .inr hr
    | store i calls =>
      rw [hpk] at h
      refine ih _ _ _ _ F h hex ?_
      rcases hinv with hl | hr
      · exact .inl (by simp at hl ⊢; omega)
      · exact .inr hr
    | fatal e calls =>
      rw [hpk] at h
      obtain ⟨rq, rfl⟩ := processKey_fatal_wrongName f tag q _ e calls hpk
      have : F.err = BErr.wrongName rq q := by
        cases h
        rfl
      rw [this] at hex
      exact absurd hex (by simp [BErr.isExhaustKind])
    | deferred upd lkup stuckEid calls =>
      rw [hpk] at h
      by_cases hc : (missing ++ [q]).length = ec
      · have hws : ws = [] := by
          rcases hinv with hl | hr
          · simp at hl hc
            have : ws.length = 0 := by omega
            exact List.length_eq_zero.mp this
          · simp [hr] at hc
        subst hws
        cases lkup with
        | some msg =>
          simp only at h
          rw [if_pos hc] at h
          cases h
          refine ⟨rfl, by simpa using hc, rfl, ?_, ?_⟩
          · intro hrec
            have hrec2 : errs ++ [BErr.lookupE msg] = [] := hrec
            simp at hrec2
          · intro e rest hrec
            have hrec2 : errs ++ [BErr.lookupE msg] = e :: rest := hrec
            cases errs with
            | nil => injection hrec2 with h1 h2
            | cons e0 tl => injection hrec2 with h1 h2
        | none =>
          simp only at h
          rw [if_pos hc] at h
          cases h
          refine ⟨rfl, by simpa using hc, rfl, ?_, ?_⟩
          · intro hrec
            have hrec2 : errs = [] := hrec
            cases hrec2
            exact ⟨stuckEid, rfl⟩
          · intro e rest hrec
            have hrec2 : errs = e :: rest := hrec
            cases hrec2
            rfl
      · have hinv' : (missing ++ [q]).length + ws.length ≤ ec ∨ ec = 0 := by
          rcases hinv with hl | hr
          · refine .inl ?_
            simp at hl ⊢
            omega
          · exact .inr hr
        cases lkup with
        | some msg =>
          simp only at h
          rw [if_neg hc] at h
          exact ih _ _ _ _ F h hex hinv'
        | none =>
          simp only at h
          rw [if_neg hc] at h
          exact ih _ _ _ _ F h hex hinv'

/-- Loop-level form of `runPass_exhaust`: any exhaustion-kind failure of the
builder loop satisfies the end-of-pass characterization, provided the loop is
entered with `errors_counter` zero (first pass) or equal to the working-set
size (later passes). -/
theorem buildLoop_exhaust (f : Factory) (tag : Nat) :
    ∀ (fuel : Nat) (ws : List QName) (ec : Nat) (m : GMap) (log : List CallRec)
      (F : BuildFail),
      buildLoop f tag fuel ws ec m log = .error F →
      F.err.isExhaustKind = true →
      (ec = 0 ∨ ec = ws.length) →
      F.pendingKeys = [] ∧ F.deferredKeys.length = F.ecAt
        ∧ (F.recorded = [] → ∃ eid, F.err = BErr.exhaustGeneric eid)
        ∧ (∀ e rest, F.recorded = e :: rest → F.err = e) := by
  intro fuel
  induction fuel with
  | zero =>
    intro ws ec m log F h hex hws
    have : F.err = BErr.fuelOut := by
      cases h
      rfl
    rw [this] at hex
    exact absurd hex (by simp [BErr.isExhaustKind])
  | succ n ih =>
    intro ws ec m log F h hex hws
    simp only [buildLoop] at h
    cases hrp : runPass f tag ec ws m [] [] log with
    | error fail =>
      simp only [hrp] at h
      cases h
      have hr := runPass_exhaust f tag ec ws m [] [] log F hrp hex
        (by rcases hws with h0 | hlen
            · exact .inr h0
            · exact .inl (by simp [hlen]))
      exact ⟨hr.1, by rw [hr.2.1, hr.2.2.1], hr.2.2.2.1, hr.2.2.2.2⟩
    | ok r =>
      obtain ⟨m', missing, log'⟩ := r
      simp only [hrp] at h
      by_cases hmiss : missing.isEmpty
      · rw [if_pos hmiss] at h
        exact absurd h (by simp)
      · rw [if_neg hmiss] at h
        exact ih missing missing.length m' log' F h hex (.inr rfl)

/-- C1: the Declaration Builder raises the no-progress exhaustion error only
at the end of a complete pass — never while keys of the pass are still
unprocessed — and only when the deferred count equals the previous
`errors_counter`; the raised error is the first recorded undefined-reference
(lookup) failure when one was recorded, and otherwise the generic structural
error naming the stuck element. -/
theorem c1_exhaustion_after_full_pass (f : Factory) (tag : Nat) (m : GMap)
    (F : BuildFail) (hrun : buildXsdMap f tag m = .error F)
    (hex : F.err.isExhaustKind = true) :
    F.pendingKeys = [] ∧ F.deferredKeys.length = F.ecAt
      ∧ (F.recorded = [] → ∃ eid, F.err = BErr.exhaustGeneric eid)
      ∧ (∀ e rest, F.recorded = e :: rest → F.err = e) := by
  exact buildLoop_exhaust f tag (m.length + 2) (keysOf m) 0 m [] F hrun hex (.inl rfl)

/-- C1 witness: a one-key map under a factory that always signals an undefined
reference — the first pass defers the key (`errors_counter` is still zero),
the second pass defers it again and raises the recorded lookup failure with no
key of the pass left unprocessed. -/
theorem c1_exhaustion_after_full_pass_witness :
    buildXsdMap fLookupW 5 mSingleW = .error failW
    ∧ failW.err.isExhaustKind = true
    ∧ (failW.pendingKeys = [] ∧ failW.deferredKeys.length = failW.ecAt
        ∧ (failW.recorded = [] → ∃ eid, failW.err = BErr.exhaustGeneric eid)
        ∧ (∀ e rest, failW.recorded = e :: rest → failW.err = e)) :=
  ⟨rfl, rfl, c1_exhaustion_after_full_pass fLookupW 5 mSingleW failW rfl rfl⟩

/-! ## Builder termination (C7) -/

/-- A pass defers at most one key per processed key. -/
theorem runPass_missing_le (f : Factory) (tag : Nat) (ec : Nat) :
    ∀ (ws : List QName) (m : GMap) (missing : List QName) (errs : List BErr)
      (log : List CallRec) (m' : GMap) (missing' : List QName) (log' : List CallRec),
      runPass f tag ec ws m missing errs log = .ok (m', missing', log') →
      missing'.length ≤ missing.length + ws.length := by
  intro ws
  induction ws with
  | nil =>
    intro m missing errs log m' missing' log' h
    simp only [runPass] at h
    obtain ⟨-, rfl, -⟩ := h
    simp
  | cons q ws ih =>
    intro m missing errs log m' missing' log' h
    simp only [runPass] at h
    cases hpk : processKey f tag q (lookupG m q) with
    | skip upd calls =>
      rw [hpk] at h
      have := ih _ _ _ _ _ _ _ h
      simp at this ⊢
      omega
    | store i calls =>
      rw [hpk] at h
      have := ih _ _ _ _ _ _ _ h
      simp at this ⊢
      omega
    | fatal e calls =>
      rw [hpk] at h
      exact absurd h (by simp)
    | deferred upd lkup stuckEid calls =>
      rw [hpk] at h
      by_cases hc : (missing ++ [q]).length = ec
      · cases lkup <;> (simp only at h; rw [if_pos hc] at h; exact absurd h (by simp))
      · cases lkup <;>
          (simp only at h
           rw [if_neg hc] at h
           have := ih _ _ _ _ _ _ _ h
           simp at this ⊢
           omega)

/-- When a pass is entered with fewer deferrals than `errors_counter` and
completes without raising, it ends with fewer deferrals than
`errors_counter`. -/
theorem runPass_missing_lt (f : Factory) (tag : Nat) (ec : Nat) :
    ∀ (ws : List QName) (m : GMap) (missing : List QName) (errs : List BErr)
      (log : List CallRec) (m' : GMap) (missing' : List QName) (log' : List CallRec),
      missing.length < ec →
      runPass f tag ec ws m missing errs log = .ok (m', missing', log') →
      missing'.length < ec := by
  intro ws
  induction ws with
  | nil =>
    intro m missing errs log m' missing' log' hlt h
    simp only [runPass] at h
    obtain ⟨-, rfl, -⟩ := h
    exact hlt
  | cons q ws ih =>
    intro m missing errs log m' missing' log' hlt h
    simp only [runPass] at h
    cases hpk : processKey f tag q (lookupG m q) with
    | skip upd calls =>
      rw [hpk] at h
      exact ih _ _ _ _ _ _ _ hlt h
    | store i calls =>
      rw [hpk] at h
      exact ih _ _ _ _ _ _ _ hlt h
    | fatal e calls =>
      rw [hpk] at h
      exact absurd h (by simp)
    | deferred upd lkup stuckEid calls =>
      rw [hpk] at h
      by_cases hc : (missing ++ [q]).length = ec
      · cases lkup <;> (simp only at h; rw [if_pos hc] at h; exact absurd h (by simp))
      · have hlt' : (missing ++ [q]).length < ec := by
          simp at hc ⊢
          omega
        cases lkup <;>
          (simp only at h
           rw [if_neg hc] at h
           exact ih _ _ _ _ _ _ _ hlt' h)

/-- Every failure a pass can raise is the structural "wrong result name" error
or an exhaustion-kind error, provided the recorded failures so far are
exhaustion-kind (they always are: only lookup failures are recorded). -/
theorem runPass_err_shape (f : Factory) (tag : Nat) (ec : Nat) :
    ∀ (ws : List QName) (m : GMap) (missing : List QName) (errs : List BErr)
      (log : List CallRec) (F : BuildFail),
      (∀ e ∈ errs, e.isExhaustKind = true) →
      runPass f tag ec ws m missing errs log = .error F →
      (∃ rq qq, F.err = .wrongName rq qq) ∨ F.err.isExhaustKind = true := by
  intro ws
  induction ws with
  | nil =>
    intro m missing errs log F herrs h
    exact absurd h (by simp [runPass])
  | cons q ws ih =>
    intro m missing errs log F herrs h
    simp only [runPass] at h
    cases hpk : processKey f tag q (lookupG m q) with
    | skip upd calls =>
      rw [hpk] at h
      exact ih _ _ _ _ F herrs h
    | store i calls =>
      rw [hpk] at h
      exact ih _ _ _ _ F herrs h
    | fatal e calls =>
      rw [hpk] at h
      obtain ⟨rq, rfl⟩ := processKey_fatal_wrongName f tag q _ e calls hpk
      cases h
      exact .inl ⟨rq, q, rfl⟩
    | deferred upd lkup stuckEid calls =>
      rw [hpk] at h
      by_cases hc : (missing ++ [q]).length = ec
      · cases lkup with
        | some msg =>
          simp only at h
          rw [if_pos hc] at h
          cases h
          refine .inr ?_
          cases herr2 : errs with
          | nil => rfl
          | cons e0 tl => exact herrs e0 (by simp [herr2])
        | none =>
          simp only at h
          rw [if_pos hc] at h
          cases h
          refine .inr ?_
          cases herr2 : errs with
          | nil => rfl
          | cons e0 tl => exact herrs e0 (by simp [herr2])
      · cases lkup with
        | some msg =>
          simp only at h
          rw [if_neg hc] at h
          refine ih _ _ _ _ F ?_ h
          intro e he
          simp at he
          rcases he with he | he
          · exact herrs e he
          · rw [he]
            rfl
        | none =>
          simp only at h
          rw [if_neg hc] at h
          exact ih _ _ _ _ F herrs h

/-- From the second pass on, the loop runs with `errors_counter` equal to the
working-set size and enough fuel; it then never consumes all fuel, and any
failure is the "wrong result name" error or an exhaustion-kind error. -/
theorem buildLoop_result_shape (f : Factory) (tag : Nat) :
    ∀ (fuel : Nat) (ws : List QName) (m : GMap) (log : List CallRec),
      ws.length + 1 ≤ fuel →
      (∀ F, buildLoop f tag fuel ws ws.length m log = .error F →
        (∃ rq qq, F.err = .wrongName rq qq) ∨ F.err.isExhaustKind = true) := by
  intro fuel
  induction fuel with
  | zero =>
    intro ws m log hfuel F h
    omega
  | succ n ih =>
    intro ws m log hfuel F h
    simp only [buildLoop] at h
    cases hrp : runPass f tag ws.length ws m [] [] log with
    | error fail =>
      simp only [hrp] at h
      cases h
      exact runPass_err_shape f tag ws.length ws m [] [] log F (by simp) hrp
    | ok r =>
      obtain ⟨m', missing, log'⟩ := r
      simp only [hrp] at h
      by_cases hmiss : missing.isEmpty
      · rw [if_pos hmiss] at h
        exact absurd h (by simp)
      · rw [if_neg hmiss] at h
        have hws : ws ≠ [] := by
          intro hnil
          subst hnil
          simp only [runPass] at hrp
          cases hrp
          simp at hmiss
        have hpos : 0 < ws.length := List.length_pos.mpr hws
        have hlt := runPass_missing_lt f tag ws.length ws m [] [] log m' missing log'
          (by simpa using hpos) hrp
        exact ih missing m' log' (by omega) F h

/-- C7: for every component map and every factory, the Declaration Builder
terminates — it either converges (returning the updated map) or raises one
terminal error, which is the structural "wrong result name" error or an
exhaustion/lookup error; the loop-fuel bound of `buildXsdMap` is never
consumed, so the source's unbounded loop runs at most a bounded number of
passes. -/
theorem c7_builder_terminates (f : Factory) (tag : Nat) (m : GMap) :
    (∃ r, buildXsdMap f tag m = .ok r)
    ∨ (∃ F, buildXsdMap f tag m = .error F
        ∧ ((∃ rq qq, F.err = .wrongName rq qq) ∨ F.err.isExhaustKind = true)) := by
  cases hr : buildXsdMap f tag m with
  | ok r => exact .inl ⟨r, rfl⟩
  | error F =>
    refine .inr ⟨F, rfl, ?_⟩
    have h : buildLoop f tag (m.length + 2) (keysOf m) 0 m [] = .error F := hr
    simp only [buildLoop] at h
    cases hrp : runPass f tag 0 (keysOf m) m [] [] [] with
    | error fail =>
      simp only [hrp] at h
      cases h
      exact runPass_err_shape f tag 0 (keysOf m) m [] [] [] F (by simp) hrp
    | ok r =>
      obtain ⟨m', missing, log'⟩ := r
      simp only [hrp] at h
      by_cases hmiss : missing.isEmpty
      · rw [if_pos hmiss] at h
        exact absurd h (by simp)
      · rw [if_neg hmiss] at h
        have hle := runPass_missing_le f tag 0 (keysOf m) m [] [] [] m' missing log' hrp
        have hkeys : (keysOf m).length = m.length := List.length_map _ _
        exact buildLoop_result_shape f tag (m.length + 1) missing m' log'
          (by simp at hle; omega) F h

/-! ## Loader: orphan redefinitions (C5) -/

/-- Storing under a key makes it the looked-up value. -/
theorem lookupG_updateG_self (m : GMap) (q : QName) (e : Entry) :
    lookupG (updateG m q e) q = some e := by
  induction m with
  | nil => simp [updateG, lookupG]
  | cons p rest ih =>
    obtain ⟨k, v⟩ := p
    by_cases hk : k = q
    · simp [updateG, lookupG, hk]
    · simp [updateG, lookupG, hk, ih]

/-- Storing under a key leaves other keys' values unchanged. -/
theorem lookupG_updateG_ne (m : GMap) (q q' : QName) (e : Entry) (h : q' ≠ q) :
    lookupG (updateG m q e) q' = lookupG m q' := by
  induction m with
  | nil => simp [updateG, lookupG, Ne.symm h]
  | cons p rest ih =>
    obtain ⟨k, v⟩ := p
    by_cases hk : k = q
    · subst hk
      simp [updateG, lookupG, Ne.symm h]
    · by_cases hk' : k = q'
      · simp [updateG, lookupG, hk, hk', h]
      · simp [updateG, lookupG, hk, hk', ih]

/-- Appending a redefinition to an existing key creates no key and deletes no
key: the presence of every key is unchanged. -/
theorem insertDecl_lookup_none_iff (m : GMap) (q q' : QName) (l : Link)
    (ent : Entry) (hq : lookupG m q = some ent) :
    (lookupG (insertDecl m q l) q' = none ↔ lookupG m q' = none) := by
  by_cases hqq : q' = q
  · subst hqq
    unfold insertDecl
    rw [hq]
    cases ent with
    | inst i => simp [lookupG_updateG_self, hq]
    | single l0 => simp [lookupG_updateG_self, hq]
    | chain h l1 rest => simp [lookupG_updateG_self, hq]
  · unfold insertDecl
    rw [hq]
    cases ent with
    | inst i => rw [lookupG_updateG_ne _ _ _ _ hqq]
    | single l0 => rw [lookupG_updateG_ne _ _ _ _ hqq]
    | chain h l1 rest => rw [lookupG_updateG_ne _ _ _ _ hqq]

/-- If some staged redefinition targets a key absent from the scanned map, the
second loader phase raises the "not a redefinition!" parse error. -/
theorem applyRedefs_orphan :
    ∀ (rs : List Redef) (m : GMap),
      (∃ r ∈ rs, lookupG m r.1 = none) →
      ∃ eid, applyRedefs m rs = .error (.noRedef eid) := by
  intro rs
  induction rs with
  | nil =>
    intro m h
    obtain ⟨r, hr, -⟩ := h
    simp at hr
  | cons p rest ih =>
    intro m h
    obtain ⟨q, l⟩ := p
    cases hq : lookupG m q with
    | none => exact ⟨l.1.eid, by simp [applyRedefs, hq]⟩
    | some ent =>
      obtain ⟨r, hr, hrnone⟩ := h
      have hr' : r ∈ rest := by
        rcases List.mem_cons.mp hr with rfl | h2
        · rw [hq] at hrnone
          exact absurd hrnone (by simp)
        · exact h2
      have hstill : lookupG (insertDecl m q l) r.1 = none :=
        (insertDecl_lookup_none_iff m q r.1 l ent hq).mpr hrnone
      obtain ⟨eid, heid⟩ := ih (insertDecl m q l) ⟨r, hr', hstill⟩
      exact ⟨eid, by simp [applyRedefs, hq, heid]⟩

/-- The second loader phase never creates a key: key presence after a
successful redefinition pass is exactly key presence before it. -/
theorem applyRedefs_ok_keys :
    ∀ (rs : List Redef) (m m2 : GMap),
      applyRedefs m rs = .ok m2 →
      ∀ q, (lookupG m2 q = none ↔ lookupG m q = none) := by
  intro rs
  induction rs with
  | nil =>
    intro m m2 h q
    simp only [applyRedefs] at h
    cases h
    exact Iff.rfl
  | cons p rest ih =>
    intro m m2 h q
    obtain ⟨q0, l⟩ := p
    simp only [applyRedefs] at h
    cases hq : lookupG m q0 with
    | none => rw [hq] at h; exact absurd h (by simp)
    | some ent =>
      rw [hq] at h
      exact (ih _ _ h q).trans (insertDecl_lookup_none_iff m q0 q l ent hq)

/-- C5: a redefine block staging a declaration whose qualified name has no
entry in the target map after all schemas are scanned makes the Declaration
Loader raise the terminal "not a redefinition!" structural parse error at load
time — a parse error, not one of the two deferred-resolution factory signals —
and the redefinition phase never creates a map key, so an orphan redefinition
is never appended to the map. -/
theorem c5_orphan_redefinition (tag : Nat) (m0 : GMap) (schemas : List Schema) :
    ((∃ r ∈ (loadScan tag schemas m0 []).2,
        lookupG (loadScan tag schemas m0 []).1 r.1 = none) →
      ∃ eid, loadXsdGlobals tag m0 schemas = .error (.noRedef eid))
    ∧ (∀ m2, loadXsdGlobals tag m0 schemas = .ok m2 →
        ∀ q, (lookupG m2 q = none ↔ lookupG (loadScan tag schemas m0 []).1 q = none)) := by
  constructor
  · intro horph
    exact applyRedefs_orphan _ _ horph
  · intro m2 h q
    exact applyRedefs_ok_keys _ _ _ h q

/-- C5 witness: a schema whose only content is a redefine block for a
never-declared qualified name — the loader stages it, finds no entry after the
scan, and raises. -/
theorem c5_orphan_redefinition_witness :
    ((qW, ((redefChildW, schOrphW) : Link)) ∈ (loadScan 5 [schOrphW] [] []).2
      ∧ lookupG (loadScan 5 [schOrphW] [] []).1 qW = none)
    ∧ (∃ eid, loadXsdGlobals 5 [] [schOrphW] = .error (.noRedef eid)) :=
  ⟨⟨List.Mem.head _, rfl⟩,
    (c5_orphan_redefinition 5 [] [schOrphW]).1
      ⟨(qW, (redefChildW, schOrphW)), List.Mem.head _, rfl⟩⟩

/-! ## Builder resolves every tagged pending entry (towards C2) -/

/-- Membership in an updated map comes from the new binding or the old map. -/
theorem mem_updateG (m : GMap) (q : QName) (e : Entry) (p : QName × Entry)
    (h : p ∈ updateG m q e) : p = (q, e) ∨ p ∈ m := by
  induction m with
  | nil =>
    simp [updateG] at h
    exact .inl h
  | cons p0 rest ih =>
    obtain ⟨k, v⟩ := p0
    by_cases hk : k = q
    · rw [updateG, if_pos hk] at h
      rcases List.mem_cons.mp h with rfl | h2
      · subst hk
        exact .inl rfl
      · exact .inr (List.mem_cons.mpr (.inr h2))
    · rw [updateG, if_neg hk] at h
      rcases List.mem_cons.mp h with rfl | h2
      · exact .inr (List.mem_cons.mpr (.inl rfl))
      · rcases ih h2 with h3 | h3
        · exact .inl h3
        · exact .inr (List.mem_cons.mpr (.inr h3))

/-- Updating a map preserves distinctness of its keys. -/
theorem nodup_updateG (m : GMap) (q : QName) (e : Entry)
    (h : (keysOf m).Nodup) : (keysOf (updateG m q e)).Nodup := by
  induction m with
  | nil => simp [updateG, keysOf]
  | cons p0 rest ih =>
    obtain ⟨k, v⟩ := p0
    simp only [keysOf, List.map_cons, List.nodup_cons] at h
    by_cases hk : k = q
    · rw [updateG, if_pos hk]
      simpa [keysOf, List.nodup_cons] using h
    · rw [updateG, if_neg hk]
      simp only [keysOf, List.map_cons, List.nodup_cons]
      refine ⟨?_, ih h.2⟩
      intro hmem
      obtain ⟨p, hp, hpk⟩ := List.mem_map.mp hmem
      rcases mem_updateG rest q e p hp with rfl | h2
      · exact hk hpk.symm
      · exact h.1 (by rw [← hpk]; exact List.mem_map_of_mem _ h2)

/-- With distinct keys, every stored pair is what the lookup returns. -/
theorem nodup_lookup_eq (m : GMap) (p : QName × Entry)
    (hn : (keysOf m).Nodup) (hp : p ∈ m) : lookupG m p.1 = some p.2 := by
  induction m with
  | nil => simp at hp
  | cons p0 rest ih =>
    obtain ⟨k, v⟩ := p0
    simp only [keysOf, List.map_cons, List.nodup_cons] at hn
    rcases List.mem_cons.mp hp with rfl | h2
    · simp [lookupG]
    · have hne : k ≠ p.1 := by
        intro hk
        exact hn.1 (by rw [hk]; exact List.mem_map_of_mem _ h2)
      rw [lookupG, if_neg hne]
      exact ih hn.2 h2

/-- Classification of the chain walk when every involved link carries the
target tag: the walk stores an instance, raises the "wrong result name" error,
or defers with a partially resolved chain whose pending links still all carry
the target tag; it never breaks out with a tag mismatch. -/
theorem walkLinks_classify (f : Factory) (tag : Nat) (q : QName)
    (l1 : Link) (rest : List Link) :
    ∀ (pending : List Link) (prev : Option Inst) (headNow : Sum Inst Link)
      (lastRes : Option (QName × Inst × Elem)) (calls : List CallRec),
      (∀ l ∈ pending, l.1.tag = tag) →
      l1.1.tag = tag →
      (∀ l ∈ rest, l.1.tag = tag) →
      (∀ l0, headNow = .inr l0 → l0.1.tag = tag) →
      (pending = [] → ∃ rq i e, lastRes = some (rq, i, e) ∧ e.tag = tag) →
      (∃ i cs, walkLinks f tag q l1 rest prev headNow pending lastRes calls = .store i cs)
      ∨ (∃ e cs, walkLinks f tag q l1 rest prev headNow pending lastRes calls = .fatal e cs)
      ∨ (∃ hN lk eid cs,
          walkLinks f tag q l1 rest prev headNow pending lastRes calls
            = .deferred (some (.chain hN l1 rest)) lk eid cs
          ∧ ∀ l ∈ Entry.pendingLinks (.chain hN l1 rest), l.1.tag = tag) := by
  intro pending
  induction pending with
  | nil =>
    intro prev headNow lastRes calls hpend hl1 hrest hhead hlast
    obtain ⟨rq, i, e, hsome, htag⟩ := hlast rfl
    subst hsome
    by_cases hq : rq ≠ q
    · refine .inr (.inl ⟨.wrongName rq q, calls, ?_⟩)
      simp only [walkLinks]
      rw [if_neg (by simp [htag]), if_pos hq]
    · refine .inl ⟨i, calls, ?_⟩
      simp only [walkLinks]
      rw [if_neg (by simp [htag]), if_neg hq]
  | cons hd pend ih =>
    intro prev headNow lastRes calls hpend hl1 hrest hhead hlast
    obtain ⟨e, s⟩ := hd
    have htag : e.tag = tag := hpend (e, s) (by simp)
    simp only [walkLinks]
    rw [if_neg (by simp [htag])]
    cases hf : f e s prev with
    | ok rq i =>
      refine ih (some i) (.inl i) (some (rq, i, e)) (calls ++ [⟨q, e, s, prev⟩])
        (fun l hl => hpend l (by simp [hl])) hl1 hrest (by simp) ?_
      intro _
      exact ⟨rq, i, e, rfl, htag⟩
    | typeErr msg =>
      refine .inr (.inr ⟨headNow, none, e.eid, calls ++ [⟨q, e, s, prev⟩], rfl, ?_⟩)
      intro l hl
      cases headNow with
      | inl i0 =>
        simp only [Entry.pendingLinks] at hl
        rcases List.mem_cons.mp hl with rfl | h2
        · exact hl1
        · exact hrest l h2
      | inr l0 =>
        simp only [Entry.pendingLinks] at hl
        rcases List.mem_cons.mp hl with rfl | h2
        · exact hhead l rfl
        · rcases List.mem_cons.mp h2 with rfl | h3
          · exact hl1
          · exact hrest l h3
    | lookupErr msg =>
      refine .inr (.inr ⟨headNow, some msg, e.eid, calls ++ [⟨q, e, s, prev⟩], rfl, ?_⟩)
      intro l hl
      cases headNow with
      | inl i0 =>
        simp only [Entry.pendingLinks] at hl
        rcases List.mem_cons.mp hl with rfl | h2
        · exact hl1
        · exact hrest l h2
      | inr l0 =>
        simp only [Entry.pendingLinks] at hl
        rcases List.mem_cons.mp hl with rfl | h2
        · exact hhead l rfl
        · rcases List.mem_cons.mp h2 with rfl | h3
          · exact hl1
          · exact hrest l h3

/-- Classification of one key step when the stored entry's pending links all
carry the target tag: the entry is skipped unchanged only when it is already a
resolved instance; otherwise the step stores, defers (with a still
tagged-pending entry when it rewrites the chain), or raises. -/
theorem processKey_classify (f : Factory) (tag : Nat) (q : QName) (ent : Entry)
    (htag : ∀ l ∈ ent.pendingLinks, l.1.tag = tag) :
    (processKey f tag q (some ent) = .skip none [] ∧ ent.isInst = true)
    ∨ (∃ i cs, processKey f tag q (some ent) = .store i cs)
    ∨ (∃ e cs, processKey f tag q (some ent) = .fatal e cs)
    ∨ (∃ ent' lk eid cs, processKey f tag q (some ent) = .deferred (some ent') lk eid cs
        ∧ ∀ l ∈ Entry.pendingLinks ent', l.1.tag = tag)
    ∨ (∃ lk eid cs, processKey f tag q (some ent) = .deferred none lk eid cs) := by
  cases ent with
  | inst i =>
    cases hel : i.elem with
    | none =>
      refine .inl ⟨?_, rfl⟩
      rw [processKey.eq_2]
      simp only [hel]
    | some e =>
      by_cases hc : e.tag ≠ tag ∨ i.schema.built = true
      · refine .inl ⟨?_, rfl⟩
        rw [processKey.eq_2]
        simp only [hel]
        rw [if_pos hc]
      · have hstep : processKey f tag q (some (.inst i))
            = (match f e i.schema (some i) with
               | .ok rq x =>
                 if e.tag ≠ tag then .skip none [⟨q, e, i.schema, some i⟩]
                 else if rq ≠ q then
                   .fatal (.wrongName rq q) [⟨q, e, i.schema, some i⟩]
                 else .store x [⟨q, e, i.schema, some i⟩]
               | .typeErr _ => .deferred none none e.eid [⟨q, e, i.schema, some i⟩]
               | .lookupErr msg =>
                 .deferred none (some msg) e.eid [⟨q, e, i.schema, some i⟩]) := by
          rw [processKey.eq_2]
          simp only [hel]
          rw [if_neg hc]
        have hetag : ¬e.tag ≠ tag := by
          intro hne
          exact hc (.inl hne)
        cases hf : f e i.schema (some i) with
        | ok rq x =>
          by_cases hq : rq ≠ q
          · refine .inr (.inr (.inl ⟨.wrongName rq q, [⟨q, e, i.schema, some i⟩], ?_⟩))
            rw [hstep]; simp only [hf]; rw [if_neg hetag, if_pos hq]
          · refine .inr (.inl ⟨x, [⟨q, e, i.schema, some i⟩], ?_⟩)
            rw [hstep]; simp only [hf]; rw [if_neg hetag, if_neg hq]
        | typeErr msg =>
          refine .inr (.inr (.inr (.inr ⟨none, e.eid, [⟨q, e, i.schema, some i⟩], ?_⟩)))
          rw [hstep]; simp only [hf]
        | lookupErr msg =>
          refine .inr (.inr (.inr (.inr ⟨some msg, e.eid, [⟨q, e, i.schema, some i⟩], ?_⟩)))
          rw [hstep]; simp only [hf]
  | single l =>
    obtain ⟨e, s⟩ := l
    have htag' : e.tag = tag := htag (e, s) (by simp [Entry.pendingLinks])
    have hetag : ¬e.tag ≠ tag := by simp [htag']
    have hstep : processKey f tag q (some (.single (e, s)))
        = (match f e s none with
           | .ok rq x =>
             if e.tag ≠ tag then .skip none [⟨q, e, s, none⟩]
             else if rq ≠ q then .fatal (.wrongName rq q) [⟨q, e, s, none⟩]
             else .store x [⟨q, e, s, none⟩]
           | .typeErr _ => .deferred none none e.eid [⟨q, e, s, none⟩]
           | .lookupErr msg => .deferred none (some msg) e.eid [⟨q, e, s, none⟩]) := by
      simp only [processKey]
      rw [if_neg hetag]
    cases hf : f e s none with
    | ok rq x =>
      by_cases hq : rq ≠ q
      · refine .inr (.inr (.inl ⟨.wrongName rq q, [⟨q, e, s, none⟩], ?_⟩))
        rw [hstep]; simp only [hf]; rw [if_neg hetag, if_pos hq]
      · refine .inr (.inl ⟨x, [⟨q, e, s, none⟩], ?_⟩)
        rw [hstep]; simp only [hf]; rw [if_neg hetag, if_neg hq]
    | typeErr msg =>
      refine .inr (.inr (.inr (.inr ⟨none, e.eid, [⟨q, e, s, none⟩], ?_⟩)))
      rw [hstep]; simp only [hf]
    | lookupErr msg =>
      refine .inr (.inr (.inr (.inr ⟨some msg, e.eid, [⟨q, e, s, none⟩], ?_⟩)))
      rw [hstep]; simp only [hf]
  | chain h0 l1 rest =>
    have hl1 : l1.1.tag = tag := by
      cases h0 with
      | inl i => exact htag l1 (by simp [Entry.pendingLinks])
      | inr l0 => exact htag l1 (by simp [Entry.pendingLinks])
    have hrest : ∀ l ∈ rest, l.1.tag = tag := by
      intro l hl
      cases h0 with
      | inl i => exact htag l (by simp [Entry.pendingLinks, hl])
      | inr l0 => exact htag l (by simp [Entry.pendingLinks, hl])
    cases h0 with
    | inr l0 =>
      have hw := walkLinks_classify f tag q l1 rest (l0 :: l1 :: rest) none (.inr l0)
        none []
        (by
          intro l hl
          rcases List.mem_cons.mp hl with rfl | h2
          · exact htag l (by simp [Entry.pendingLinks])
          · rcases List.mem_cons.mp h2 with rfl | h3
            · exact hl1
            · exact hrest l h3)
        hl1 hrest
        (by
          intro la hla
          cases hla
          exact htag l0 (by simp [Entry.pendingLinks]))
        (by simp)
      have hpk : processKey f tag q (some (.chain (.inr l0) l1 rest))
          = walkLinks f tag q l1 rest none (.inr l0) (l0 :: l1 :: rest) none [] := by
        simp only [processKey]
      rcases hw with ⟨i, cs, hw⟩ | ⟨e, cs, hw⟩ | ⟨hN, lk, eid, cs, hw, htags⟩
      · exact .inr (.inl ⟨i, cs, by rw [hpk, hw]⟩)
      · exact .inr (.inr (.inl ⟨e, cs, by rw [hpk, hw]⟩))
      · exact .inr (.inr (.inr (.inl
          ⟨.chain hN l1 rest, lk, eid, cs, by rw [hpk, hw], htags⟩)))
    | inl i =>
      have hw := walkLinks_classify f tag q l1 rest (l1 :: rest) (some i) (.inl i)
        none []
        (by
          intro l hl
          rcases List.mem_cons.mp hl with rfl | h2
          · exact hl1
          · exact hrest l h2)
        hl1 hrest (by simp) (by simp)
      have hpk : processKey f tag q (some (.chain (.inl i) l1 rest))
          = walkLinks f tag q l1 rest (some i) (.inl i) (l1 :: rest) none [] := by
        simp only [processKey]
      rcases hw with ⟨j, cs, hw⟩ | ⟨e, cs, hw⟩ | ⟨hN, lk, eid, cs, hw, htags⟩
      · exact .inr (.inl ⟨j, cs, by rw [hpk, hw]⟩)
      · exact .inr (.inr (.inl ⟨e, cs, by rw [hpk, hw]⟩))
      · exact .inr (.inr (.inr (.inl
          ⟨.chain hN l1 rest, lk, eid, cs, by rw [hpk, hw], htags⟩)))

/-- A successful lookup exhibits a stored pair. -/
theorem lookupG_some_mem (m : GMap) (q : QName) (e : Entry)
    (h : lookupG m q = some e) : (q, e) ∈ m := by
  induction m with
  | nil => simp [lookupG] at h
  | cons p0 rest ih =>
    obtain ⟨k, v⟩ := p0
    by_cases hk : k = q
    · rw [lookupG, if_pos hk] at h
      cases h
      subst hk
      exact List.mem_cons.mpr (.inl rfl)
    · rw [lookupG, if_neg hk] at h
      exact List.mem_cons.mpr (.inr (ih h))

/-- With distinct keys, membership in an updated map is the new binding or an
old binding under a different key. -/
theorem mem_updateG_nodup (m : GMap) (q : QName) (e : Entry) (p : QName × Entry)
    (hn : (keysOf m).Nodup) (h : p ∈ updateG m q e) :
    p = (q, e) ∨ (p ∈ m ∧ p.1 ≠ q) := by
  induction m with
  | nil =>
    simp [updateG] at h
    exact .inl h
  | cons p0 rest ih =>
    obtain ⟨k, v⟩ := p0
    simp only [keysOf, List.map_cons, List.nodup_cons] at hn
    by_cases hk : k = q
    · rw [updateG, if_pos hk] at h
      rcases List.mem_cons.mp h with rfl | h2
      · subst hk
        exact .inl rfl
      · refine .inr ⟨List.mem_cons.mpr (.inr h2), ?_⟩
        intro hpq
        rw [← hk] at hpq
        exact hn.1 (by rw [← hpq]; exact List.mem_map_of_mem _ h2)
    · rw [updateG, if_neg hk] at h
      rcases List.mem_cons.mp h with rfl | h2
      · exact .inr ⟨List.mem_cons.mpr (.inl rfl), hk⟩
      · rcases ih hn.2 h2 with h3 | ⟨h3, h4⟩
        · exact .inl h3
        · exact .inr ⟨List.mem_cons.mpr (.inr h3), h4⟩

/-- One pass of the builder preserves key distinctness and tagged pending
links, and every key it does not defer holds a resolved instance afterwards. -/
theorem runPass_inst (f : Factory) (tag : Nat) (ec : Nat) :
    ∀ (ws : List QName) (m : GMap) (missing : List QName) (errs : List BErr)
      (log : List CallRec) (m' : GMap) (missing' : List QName) (log' : List CallRec),
      runPass f tag ec ws m missing errs log = .ok (m', missing', log') →
      (keysOf m).Nodup → PendTag m tag →
      (∀ p ∈ m, p.1 ∉ missing ++ ws → p.2.isInst = true) →
      (keysOf m').Nodup ∧ PendTag m' tag
        ∧ (∀ p ∈ m', p.1 ∉ missing' → p.2.isInst = true) := by
  intro ws
  induction ws with
  | nil =>
    intro m missing errs log m' missing' log' h hn hp hout
    simp only [runPass] at h
    obtain ⟨rfl, rfl, rfl⟩ := h
    exact ⟨hn, hp, fun p hp2 hni => hout p hp2 (by simpa using hni)⟩
  | cons q ws ih =>
    intro m missing errs log m' missing' log' h hn hp hout
    simp only [runPass] at h
    cases hlk : lookupG m q with
    | none =>
      rw [hlk] at h
      simp only [processKey] at h
      simp only [applyUpd] at h
      refine ih _ _ _ _ _ _ _ h hn hp ?_
      intro p hp2 hni
      by_cases hpq : p.1 = q
      · have hle := nodup_lookup_eq m p hn hp2
        rw [hpq, hlk] at hle
        exact absurd hle (by simp)
      · refine hout p hp2 ?_
        simp only [List.mem_append, List.mem_cons] at hni ⊢
        tauto
    | some ent =>
      rw [hlk] at h
      have hmem : (q, ent) ∈ m := lookupG_some_mem m q ent hlk
      have hptag : ∀ l ∈ ent.pendingLinks, l.1.tag = tag := hp (q, ent) hmem
      rcases processKey_classify f tag q ent hptag with
        ⟨hstep, hinst⟩ | ⟨i, cs, hstep⟩ | ⟨e, cs, hstep⟩
        | ⟨ent', lk, eid, cs, hstep, htags⟩ | ⟨lk, eid, cs, hstep⟩
      · simp only [hstep] at h
        simp only [applyUpd] at h
        refine ih _ _ _ _ _ _ _ h hn hp ?_
        intro p hp2 hni
        by_cases hpq : p.1 = q
        · have hle := nodup_lookup_eq m p hn hp2
          rw [hpq, hlk] at hle
          have hv : p.2 = ent := by
            injection hle with hv
            exact hv.symm
          rw [hv]
          exact hinst
        · refine hout p hp2 ?_
          simp only [List.mem_append, List.mem_cons] at hni ⊢
          tauto
      · simp only [hstep] at h
        refine ih _ _ _ _ _ _ _ h (nodup_updateG m q _ hn) ?_ ?_
        · intro p hp2 l hl
          rcases mem_updateG_nodup m q _ p hn hp2 with rfl | ⟨h3, -⟩
          · simp [Entry.pendingLinks] at hl
          · exact hp p h3 l hl
        · intro p hp2 hni
          rcases mem_updateG_nodup m q _ p hn hp2 with rfl | ⟨h3, h4⟩
          · rfl
          · refine hout p h3 ?_
            simp only [List.mem_append, List.mem_cons] at hni ⊢
            tauto
      · rw [hstep] at h
        exact absurd h (by simp)
      · rw [hstep] at h
        by_cases hc : (missing ++ [q]).length = ec
        · cases lk <;> (simp only at h; rw [if_pos hc] at h; exact absurd h (by simp))
        · have h' : runPass f tag ec ws (applyUpd m q (some ent'))
              (missing ++ [q])
              (match lk with
               | some msg => errs ++ [BErr.lookupE msg]
               | none => errs) (log ++ cs) = .ok (m', missing', log') := by
            cases lk <;> (simp only at h; rw [if_neg hc] at h; exact h)
          simp only [applyUpd] at h'
          refine ih _ _ _ _ _ _ _ h' (nodup_updateG m q _ hn) ?_ ?_
          · intro p hp2 l hl
            rcases mem_updateG_nodup m q _ p hn hp2 with rfl | ⟨h3, -⟩
            · exact htags l hl
            · exact hp p h3 l hl
          · intro p hp2 hni
            rcases mem_updateG_nodup m q _ p hn hp2 with rfl | ⟨h3, h4⟩
            · exact absurd (by simp : (q, ent').1 ∈ missing ++ [q] ++ ws) hni
            · refine hout p h3 ?_
              simp only [List.mem_append, List.mem_cons] at hni ⊢
              tauto
      · rw [hstep] at h
        by_cases hc : (missing ++ [q]).length = ec
        · cases lk <;> (simp only at h; rw [if_pos hc] at h; exact absurd h (by simp))
        · have h' : runPass f tag ec ws (applyUpd m q none)
              (missing ++ [q])
              (match lk with
               | some msg => errs ++ [BErr.lookupE msg]
               | none => errs) (log ++ cs) = .ok (m', missing', log') := by
            cases lk <;> (simp only at h; rw [if_neg hc] at h; exact h)
          simp only [applyUpd] at h'
          refine ih _ _ _ _ _ _ _ h' hn hp ?_
          intro p hp2 hni
          by_cases hpq : p.1 = q
          · exact absurd (by simp [hpq] : p.1 ∈ missing ++ [q] ++ ws) hni
          · refine hout p hp2 ?_
            simp only [List.mem_append, List.mem_cons] at hni ⊢
            tauto

/-- The builder loop, entered with tagged pending links and resolved values
outside its working set, converges only to an all-instances map (with its key
distinctness preserved). -/
theorem buildLoop_inst (f : Factory) (tag : Nat) :
    ∀ (fuel : Nat) (ws : List QName) (ec : Nat) (m : GMap) (log : List CallRec)
      (m' : GMap) (log' : List CallRec),
      buildLoop f tag fuel ws ec m log = .ok (m', log') →
      (keysOf m).Nodup → PendTag m tag →
      (∀ p ∈ m, p.1 ∉ ws → p.2.isInst = true) →
      AllInst m' ∧ (keysOf m').Nodup := by
  intro fuel
  induction fuel with
  | zero =>
    intro ws ec m log m' log' h
    exact absurd h (by simp [buildLoop])
  | succ n ih =>
    intro ws ec m log m' log' h hn hp hout
    simp only [buildLoop] at h
    cases hrp : runPass f tag ec ws m [] [] log with
    | error fail =>
      simp only [hrp] at h
      exact absurd h (by simp)
    | ok r =>
      obtain ⟨m1, missing, log1⟩ := r
      simp only [hrp] at h
      have hstep := runPass_inst f tag ec ws m [] [] log m1 missing log1 hrp hn hp
        (by intro p hp2 hni; exact hout p hp2 (by simpa using hni))
      by_cases hmiss : missing.isEmpty
      · rw [if_pos hmiss] at h
        cases h
        have hmiss' : missing = [] := List.isEmpty_iff.mp hmiss
        subst hmiss'
        refine ⟨?_, hstep.1⟩
        intro p hp2
        exact hstep.2.2 p hp2 (by simp)
      · rw [if_neg hmiss] at h
        exact ih missing missing.length m1 log1 m' log' h hstep.1 hstep.2.1 hstep.2.2

/-- A successful builder run on a map whose pending links all carry the target
tag (and whose keys are distinct) leaves only resolved instances in the map,
and keeps the keys distinct. -/
theorem buildXsdMap_allinst (f : Factory) (tag : Nat) (m : GMap)
    (m' : GMap) (log' : List CallRec)
    (h : buildXsdMap f tag m = .ok (m', log'))
    (hn : (keysOf m).Nodup) (hp : PendTag m tag) :
    AllInst m' ∧ (keysOf m').Nodup := by
  refine buildLoop_inst f tag (m.length + 2) (keysOf m) 0 m [] m' log' h hn hp ?_
  intro p hp2 hni
  exact absurd (List.mem_map_of_mem Prod.fst hp2) hni

/-! ## Loader invariants (towards C2) -/

/-- The scanner's single-document form yields only target-tagged elements. -/
theorem mem_iterfindByTag_tag (tag : Nat) (doc : Elem) (path : Option Nat)
    (e : Elem) (h : e ∈ iterfindByTag tag doc path) : e.tag = tag := by
  have h' := List.mem_filter.mp h
  simpa using h'.2

/-- Top-level declarations collected by a loader all carry its tag. -/
theorem schemaDecls_tag (tag : Nat) (s : Schema) (e : Elem)
    (h : e ∈ schemaDecls tag s) : e.tag = tag :=
  mem_iterfindByTag_tag tag s.root none e h

/-- Staged redefinitions collected by a loader all carry its tag. -/
theorem schemaRedefs_tag (tag : Nat) (s : Schema) (r : Redef)
    (h : r ∈ schemaRedefs tag s) : r.2.1.tag = tag := by
  obtain ⟨blk, -, hr⟩ := List.mem_flatMap.mp h
  obtain ⟨child, hc, rfl⟩ := List.mem_map.mp hr
  exact mem_iterfindByTag_tag tag blk none child hc

/-- A resolved entry has no pending links. -/
theorem pendingLinks_isInst (e : Entry) (h : e.isInst = true) :
    e.pendingLinks = [] := by
  cases e with
  | inst i => rfl
  | single l => simp [Entry.isInst] at h
  | chain h0 l1 rest => simp [Entry.isInst] at h

/-- An all-instances map has tagged pending links for any tag. -/
theorem allInst_pendTag (m : GMap) (tag : Nat) (h : AllInst m) : PendTag m tag := by
  intro p hp l hl
  rw [pendingLinks_isInst p.2 (h p hp)] at hl
  simp at hl

/-- Inserting a target-tagged declaration preserves tagged pending links. -/
theorem pendTag_insertDecl (m : GMap) (q : QName) (l : Link) (tag : Nat)
    (hp : PendTag m tag) (hl : l.1.tag = tag) : PendTag (insertDecl m q l) tag := by
  unfold insertDecl
  cases hlk : lookupG m q with
  | none =>
    intro p hp2 la hla
    rcases mem_updateG m q _ p hp2 with rfl | h2
    · simp only [Entry.pendingLinks, List.mem_singleton] at hla
      subst hla
      exact hl
    · exact hp p h2 la hla
  | some ent =>
    have hmem : (q, ent) ∈ m := lookupG_some_mem m q ent hlk
    cases ent with
    | inst i =>
      intro p hp2 la hla
      rcases mem_updateG m q _ p hp2 with rfl | h2
      · simp only [Entry.pendingLinks, List.mem_cons, List.not_mem_nil, or_false] at hla
        subst hla
        exact hl
      · exact hp p h2 la hla
    | single l0 =>
      intro p hp2 la hla
      rcases mem_updateG m q _ p hp2 with h3 | h2
      · rw [h3] at hla
        simp only [Entry.pendingLinks, List.mem_cons, List.not_mem_nil, or_false] at hla
        rcases hla with h4 | h4
        · rw [h4]
          exact hp (q, .single l0) hmem l0 (by simp [Entry.pendingLinks])
        · rw [h4]
          exact hl
      · exact hp p h2 la hla
    | chain h0 l1 rest =>
      intro p hp2 la hla
      rcases mem_updateG m q _ p hp2 with h3 | h2
      · have hold := hp (q, .chain h0 l1 rest) hmem
        rw [h3] at hla
        have hsub : la ∈ Entry.pendingLinks (.chain h0 l1 rest) ∨ la = l := by
          cases h0 with
          | inl i =>
            simp only [Entry.pendingLinks, List.mem_cons, List.mem_append,
              List.mem_singleton] at hla ⊢
            tauto
          | inr lz =>
            simp only [Entry.pendingLinks, List.mem_cons, List.mem_append,
              List.mem_singleton] at hla ⊢
            tauto
        rcases hsub with h4 | h4
        · exact hold la h4
        · rw [h4]
          exact hl
      · exact hp p h2 la hla

/-- Inserting a declaration preserves key distinctness. -/
theorem nodup_insertDecl (m : GMap) (q : QName) (l : Link)
    (hn : (keysOf m).Nodup) : (keysOf (insertDecl m q l)).Nodup := by
  unfold insertDecl
  cases lookupG m q with
  | none => exact nodup_updateG m q _ hn
  | some ent =>
    cases ent with
    | inst i => exact nodup_updateG m q _ hn
    | single l0 => exact nodup_updateG m q _ hn
    | chain h0 l1 rest => exact nodup_updateG m q _ hn

/-- The per-schema insertion fold preserves both loader invariants. -/
theorem fold_insertDecl_good (tag : Nat) (s : Schema) :
    ∀ (es : List Elem) (m : GMap),
      PendTag m tag → (keysOf m).Nodup → (∀ e ∈ es, e.tag = tag) →
      PendTag (es.foldl
        (fun acc e => insertDecl acc (getQname s.targetNamespace e.nameAttr) (e, s)) m) tag
      ∧ (keysOf (es.foldl
          (fun acc e => insertDecl acc (getQname s.targetNamespace e.nameAttr) (e, s)) m)).Nodup := by
  intro es
  induction es with
  | nil => intro m hp hn _; exact ⟨hp, hn⟩
  | cons e es ih =>
    intro m hp hn htags
    simp only [List.foldl_cons]
    exact ih _ (pendTag_insertDecl m _ (e, s) tag hp (htags e (by simp)))
      (nodup_insertDecl m _ (e, s) hn) (fun e' he' => htags e' (by simp [he']))

/-- The scanning phase of the loader preserves tagged pending links and key
distinctness, and stages only target-tagged redefinitions. -/
theorem loadScan_good (tag : Nat) :
    ∀ (ss : List Schema) (m : GMap) (reds : List Redef),
      PendTag m tag → (keysOf m).Nodup → (∀ r ∈ reds, r.2.1.tag = tag) →
      PendTag (loadScan tag ss m reds).1 tag
      ∧ (keysOf (loadScan tag ss m reds).1).Nodup
      ∧ (∀ r ∈ (loadScan tag ss m reds).2, r.2.1.tag = tag) := by
  intro ss
  induction ss with
  | nil => intro m reds hp hn hr; exact ⟨hp, hn, hr⟩
  | cons s ss ih =>
    intro m reds hp hn hr
    simp only [loadScan]
    by_cases hb : s.built
    · rw [if_pos hb]
      exact ih m reds hp hn hr
    · rw [if_neg hb]
      have hfold := fold_insertDecl_good tag s (schemaDecls tag s) m hp hn
        (fun e he => schemaDecls_tag tag s e he)
      refine ih _ _ hfold.1 hfold.2 ?_
      intro r hr2
      rcases List.mem_append.mp hr2 with h2 | h2
      · exact hr r h2
      · exact schemaRedefs_tag tag s r h2

/-- The redefinition phase of the loader preserves tagged pending links and
key distinctness. -/
theorem applyRedefs_good (tag : Nat) :
    ∀ (rs : List Redef) (m m2 : GMap),
      applyRedefs m rs = .ok m2 →
      PendTag m tag → (keysOf m).Nodup → (∀ r ∈ rs, r.2.1.tag = tag) →
      PendTag m2 tag ∧ (keysOf m2).Nodup := by
  intro rs
  induction rs with
  | nil =>
    intro m m2 h hp hn _
    simp only [applyRedefs] at h
    cases h
    exact ⟨hp, hn⟩
  | cons p rest ih =>
    intro m m2 h hp hn hr
    obtain ⟨q0, l⟩ := p
    simp only [applyRedefs] at h
    cases hq : lookupG m q0 with
    | none => rw [hq] at h; exact absurd h (by simp)
    | some ent =>
      rw [hq] at h
      exact ih _ _ h
        (pendTag_insertDecl m q0 l tag hp (hr (q0, l) (by simp)))
        (nodup_insertDecl m q0 l hn)
        (fun r hr2 => hr r (by simp [hr2]))

/-- A successful load preserves tagged pending links and key distinctness. -/
theorem loadXsdGlobals_good (tag : Nat) (m0 : GMap) (ss : List Schema) (m1 : GMap)
    (h : loadXsdGlobals tag m0 ss = .ok m1)
    (hp : PendTag m0 tag) (hn : (keysOf m0).Nodup) :
    PendTag m1 tag ∧ (keysOf m1).Nodup := by
  have hscan := loadScan_good tag ss m0 [] hp hn (by simp)
  exact applyRedefs_good tag _ _ _ h hscan.1 hscan.2.1 hscan.2.2

/-- Membership in a dict-update comes from either map. -/
theorem mem_updateAll : ∀ (src dst : GMap) (p : QName × Entry),
    p ∈ updateAll dst src → p ∈ dst ∨ p ∈ src := by
  intro src
  induction src with
  | nil =>
    intro dst p h
    exact .inl h
  | cons pr src ih =>
    intro dst p h
    simp only [updateAll, List.foldl_cons] at h
    rcases ih _ p h with h2 | h2
    · rcases mem_updateG dst pr.1 pr.2 p h2 with h3 | h3
      · exact .inr (by simp [h3])
      · exact .inl h3
    · exact .inr (by simp [h2])

/-- Dict-update of two all-instances maps is all instances. -/
theorem allInst_updateAll (dst src : GMap) (h1 : AllInst dst) (h2 : AllInst src) :
    AllInst (updateAll dst src) := by
  intro p hp
  rcases mem_updateAll src dst p hp with h3 | h3
  · exact h1 p h3
  · exact h2 p h3

/-- Membership after inserting iterated group elements: an old binding or a
resolved instance. -/
theorem mem_foldl_instUpd : ∀ (es : List Inst) (dst : GMap) (p : QName × Entry),
    p ∈ es.foldl (fun acc e => updateG acc e.nameOf (.inst e)) dst →
    p ∈ dst ∨ p.2.isInst = true := by
  intro es
  induction es with
  | nil =>
    intro dst p h
    exact .inl h
  | cons e es ih =>
    intro dst p h
    simp only [List.foldl_cons] at h
    rcases ih _ p h with h2 | h2
    · rcases mem_updateG dst e.nameOf _ p h2 with h3 | h3
      · refine .inr ?_
        rw [h3]
        rfl
      · exact .inl h3
    · exact .inr h2

/-- The base-elements expansion keeps the map all instances. -/
theorem expandGroups_allinst : ∀ (gs dst out : GMap),
    expandGroups dst gs = .ok out → AllInst dst → AllInst out := by
  intro gs
  induction gs with
  | nil =>
    intro dst out h hd
    simp only [expandGroups] at h
    cases h
    exact hd
  | cons p gs ih =>
    intro dst out h hd
    obtain ⟨q, ent⟩ := p
    cases ent with
    | inst i =>
      simp only [expandGroups] at h
      refine ih _ _ h ?_
      intro p2 hp2
      rcases mem_foldl_instUpd i.subElems dst p2 hp2 with h2 | h2
      · exact hd p2 h2
      · exact h2
    | single l => exact absurd h (by simp [expandGroups])
    | chain h0 l1 rest => exact absurd h (by simp [expandGroups])

/-- C2: on any registry state whose six maps hold only built instances (with
distinct keys in the five maps that are loaded and built — as every reachable
registry state has), a `build()` that returns without raising leaves every
qualified name of each of the six component maps mapped to a built component
instance: never a raw declaration pair and never a chain, including chains
whose links carry different declaration tags (such chains resolve across the
successive per-tag builder rounds or the run raises). -/
theorem c2_build_all_instances (g g2 : XsdGlobalsSt)
    (h0 : AllMapsInst g)
    (hnod : (keysOf g.types).Nodup ∧ (keysOf g.attributes).Nodup
      ∧ (keysOf g.attributeGroups).Nodup ∧ (keysOf g.groups).Nodup
      ∧ (keysOf g.elements).Nodup)
    (hb : g.build = .ok g2) : AllMapsInst g2 := by
  obtain ⟨hT, hA, hAG, hG, hE, hB⟩ := h0
  obtain ⟨hnT, hnA, hnAG, hnG, hnE⟩ := hnod
  unfold XsdGlobalsSt.build at hb
  simp only [bind, Except.bind] at hb
  cases h1 : loadXsdGlobals XSDSimpleTypeTag g.types g.schemas with
  | error e =>
    simp only [h1, liftLoad] at hb
    exact absurd hb (by simp)
  | ok types1 =>
  simp only [h1, liftLoad] at hb
  have good1 := loadXsdGlobals_good _ _ _ _ h1 (allInst_pendTag _ _ hT) hnT
  cases h2 : buildXsdMap (g.validator.simpleTypeFactory false) XSDSimpleTypeTag types1 with
  | error e =>
    simp only [h2] at hb
    exact absurd hb (by simp)
  | ok r1 =>
  simp only [h2] at hb
  have a2 := buildXsdMap_allinst _ _ _ r1.1 r1.2 h2 good1.2 good1.1
  cases h3 : loadXsdGlobals XSDAttributeTag g.attributes g.schemas with
  | error e =>
    simp only [h3, liftLoad] at hb
    exact absurd hb (by simp)
  | ok attrs1 =>
  simp only [h3, liftLoad] at hb
  have good3 := loadXsdGlobals_good _ _ _ _ h3 (allInst_pendTag _ _ hA) hnA
  cases h4 : buildXsdMap (g.validator.attributeFactory false) XSDAttributeTag attrs1 with
  | error e =>
    simp only [h4] at hb
    exact absurd hb (by simp)
  | ok r2 =>
  simp only [h4] at hb
  have a4 := buildXsdMap_allinst _ _ _ r2.1 r2.2 h4 good3.2 good3.1
  cases h5 : loadXsdGlobals XSDAttributeGroupTag g.attributeGroups g.schemas with
  | error e =>
    simp only [h5, liftLoad] at hb
    exact absurd hb (by simp)
  | ok ags1 =>
  simp only [h5, liftLoad] at hb
  have good5 := loadXsdGlobals_good _ _ _ _ h5 (allInst_pendTag _ _ hAG) hnAG
  cases h6 : buildXsdMap (g.validator.attributeGroupFactory false) XSDAttributeGroupTag ags1 with
  | error e =>
    simp only [h6] at hb
    exact absurd hb (by simp)
  | ok r3 =>
  simp only [h6] at hb
  have a6 := buildXsdMap_allinst _ _ _ r3.1 r3.2 h6 good5.2 good5.1
  cases h7 : loadXsdGlobals XSDComplexTypeTag r1.1 g.schemas with
  | error e =>
    simp only [h7, liftLoad] at hb
    exact absurd hb (by simp)
  | ok types3 =>
  simp only [h7, liftLoad] at hb
  have good7 := loadXsdGlobals_good _ _ _ _ h7 (allInst_pendTag _ _ a2.1) a2.2
  cases h8 : buildXsdMap (g.validator.complexTypeFactory false) XSDComplexTypeTag types3 with
  | error e =>
    simp only [h8] at hb
    exact absurd hb (by simp)
  | ok r4 =>
  simp only [h8] at hb
  have a8 := buildXsdMap_allinst _ _ _ r4.1 r4.2 h8 good7.2 good7.1
  cases h9 : loadXsdGlobals XSDElementTag g.elements g.schemas with
  | error e =>
    simp only [h9, liftLoad] at hb
    exact absurd hb (by simp)
  | ok elems1 =>
  simp only [h9, liftLoad] at hb
  have good9 := loadXsdGlobals_good _ _ _ _ h9 (allInst_pendTag _ _ hE) hnE
  cases h10 : buildXsdMap (g.validator.elementFactory false) XSDElementTag elems1 with
  | error e =>
    simp only [h10] at hb
    exact absurd hb (by simp)
  | ok r5 =>
  simp only [h10] at hb
  have a10 := buildXsdMap_allinst _ _ _ r5.1 r5.2 h10 good9.2 good9.1
  cases h11 : loadXsdGlobals XSDGroupTag g.groups g.schemas with
  | error e =>
    simp only [h11, liftLoad] at hb
    exact absurd hb (by simp)
  | ok groups1 =>
  simp only [h11, liftLoad] at hb
  have good11 := loadXsdGlobals_good _ _ _ _ h11 (allInst_pendTag _ _ hG) hnG
  cases h12 : buildXsdMap (g.validator.groupFactory false) XSDGroupTag groups1 with
  | error e =>
    simp only [h12] at hb
    exact absurd hb (by simp)
  | ok r6 =>
  simp only [h12] at hb
  have a12 := buildXsdMap_allinst _ _ _ r6.1 r6.2 h12 good11.2 good11.1
  cases h13 : buildXsdMap (g.validator.groupFactory true) XSDGroupTag r6.1 with
  | error e =>
    simp only [h13] at hb
    exact absurd hb (by simp)
  | ok r7 =>
  simp only [h13] at hb
  have a13 := buildXsdMap_allinst _ _ _ r7.1 r7.2 h13 a12.2 (allInst_pendTag _ _ a12.1)
  cases h14 : buildXsdMap (g.validator.complexTypeFactory true) XSDComplexTypeTag r4.1 with
  | error e =>
    simp only [h14] at hb
    exact absurd hb (by simp)
  | ok r8 =>
  simp only [h14] at hb
  have a14 := buildXsdMap_allinst _ _ _ r8.1 r8.2 h14 a8.2 (allInst_pendTag _ _ a8.1)
  cases h15 : buildXsdMap (g.validator.elementFactory true) XSDElementTag r5.1 with
  | error e =>
    simp only [h15] at hb
    exact absurd hb (by simp)
  | ok r9 =>
  simp only [h15] at hb
  have a15 := buildXsdMap_allinst _ _ _ r9.1 r9.2 h15 a10.2 (allInst_pendTag _ _ a10.1)
  cases h16 : expandGroups (updateAll g.baseElements r9.1) r7.1 with
  | error e =>
    simp only [h16] at hb
    exact absurd hb (by simp)
  | ok base2 =>
  simp only [h16, pure, Except.pure] at hb
  cases hb
  have hbase1 : AllInst (updateAll g.baseElements r9.1) :=
    allInst_updateAll _ _ hB a15.1
  exact ⟨a14.1, a4.1, a6.1, a13.1, a15.1, expandGroups_allinst _ _ _ h16 hbase1⟩

/-- C2 witness: `c2_build_all_instances` on a registry with empty maps and no
schemas, whose `build()` succeeds immediately. -/
theorem c2_build_all_instances_witness :
    AllMapsInst regEmptyW
    ∧ ((keysOf regEmptyW.types).Nodup ∧ (keysOf regEmptyW.attributes).Nodup
        ∧ (keysOf regEmptyW.attributeGroups).Nodup ∧ (keysOf regEmptyW.groups).Nodup
        ∧ (keysOf regEmptyW.elements).Nodup)
    ∧ regEmptyW.build = .ok regEmptyW
    ∧ AllMapsInst regEmptyW :=
  ⟨by
    refine ⟨?_, ?_, ?_, ?_, ?_, ?_⟩ <;>
      (intro p hp; simp [regEmptyW] at hp),
   by simp [regEmptyW, keysOf],
   rfl,
   c2_build_all_instances regEmptyW regEmptyW
    (by
      refine ⟨?_, ?_, ?_, ?_, ?_, ?_⟩ <;>
        (intro p hp; simp [regEmptyW] at hp))
    (by simp [regEmptyW, keysOf])
    rfl⟩

/-! ## Loader chain order (towards C6) -/

/-- Inserting a declaration for a key appends one link to the key's link
sequence. -/
theorem insertDecl_links (m : GMap) (q : QName) (l : Link) (L : List Link)
    (h : lookupG m q = entryOfLinks L) :
    lookupG (insertDecl m q l) q = entryOfLinks (L ++ [l]) := by
  cases L with
  | nil =>
    simp only [entryOfLinks] at h
    unfold insertDecl
    rw [h]
    simp [lookupG_updateG_self, entryOfLinks]
  | cons l0 L1 =>
    cases L1 with
    | nil =>
      simp only [entryOfLinks] at h
      unfold insertDecl
      rw [h]
      simp [lookupG_updateG_self, entryOfLinks]
    | cons l1 L2 =>
      simp only [entryOfLinks] at h
      unfold insertDecl
      rw [h]
      simp [lookupG_updateG_self, entryOfLinks]

/-- Inserting a declaration for another key leaves a key's entry unchanged. -/
theorem insertDecl_lookup_ne (m : GMap) (q q' : QName) (l : Link) (h : q ≠ q') :
    lookupG (insertDecl m q' l) q = lookupG m q := by
  unfold insertDecl
  cases lookupG m q' with
  | none => exact lookupG_updateG_ne m q' q _ h
  | some ent =>
    cases ent with
    | inst i => exact lookupG_updateG_ne m q' q _ h
    | single l0 => exact lookupG_updateG_ne m q' q _ h
    | chain h0 l1 rest => exact lookupG_updateG_ne m q' q _ h

/-- Scanning one schema's declarations appends that schema's matching links,
in document order, to a key's link sequence. -/
theorem fold_insertDecl_links (q : QName) (s : Schema) :
    ∀ (es : List Elem) (m : GMap) (L : List Link),
      lookupG m q = entryOfLinks L →
      lookupG (es.foldl
        (fun acc e => insertDecl acc (getQname s.targetNamespace e.nameAttr) (e, s)) m) q
        = entryOfLinks (L ++ es.filterMap
            (fun e => if getQname s.targetNamespace e.nameAttr = q
                      then some ((e, s) : Link) else none)) := by
  intro es
  induction es with
  | nil =>
    intro m L h
    simpa using h
  | cons e es ih =>
    intro m L h
    simp only [List.foldl_cons]
    by_cases hk : getQname s.targetNamespace e.nameAttr = q
    · rw [hk]
      have h2 := insertDecl_links m q (e, s) L h
      have h3 := ih (insertDecl m q (e, s)) (L ++ [(e, s)]) h2
      have hfc : List.filterMap
          (fun e => if getQname s.targetNamespace e.nameAttr = q
                    then some ((e, s) : Link) else none) (e :: es)
          = (e, s) :: List.filterMap
              (fun e => if getQname s.targetNamespace e.nameAttr = q
                        then some ((e, s) : Link) else none) es := by
        simp [List.filterMap_cons, hk]
      rw [h3, hfc]
      simp [List.append_assoc]
    · have hfc : List.filterMap
          (fun e => if getQname s.targetNamespace e.nameAttr = q
                    then some ((e, s) : Link) else none) (e :: es)
          = List.filterMap
              (fun e => if getQname s.targetNamespace e.nameAttr = q
                        then some ((e, s) : Link) else none) es := by
        simp [List.filterMap_cons, hk]
      rw [hfc]
      exact ih _ L (by rw [insertDecl_lookup_ne m q _ (e, s) (fun hh => hk hh.symm)]; exact h)

/-- The scanning phase appends the step-3 originals of a key in schema scan
order, and stages the redefinitions of every not-yet-built schema in order. -/
theorem loadScan_links (tag : Nat) (q : QName) :
    ∀ (ss : List Schema) (m : GMap) (reds : List Redef) (L : List Link),
      lookupG m q = entryOfLinks L →
      lookupG (loadScan tag ss m reds).1 q = entryOfLinks (L ++ origLinks tag q ss)
      ∧ (loadScan tag ss m reds).2
          = reds ++ (ss.filter (fun s => !s.built)).flatMap (schemaRedefs tag) := by
  intro ss
  induction ss with
  | nil =>
    intro m reds L h
    constructor
    · simpa [loadScan, origLinks] using h
    · simp [loadScan]
  | cons s ss ih =>
    intro m reds L h
    simp only [loadScan]
    by_cases hb : s.built
    · rw [if_pos hb]
      obtain ⟨ih1, ih2⟩ := ih m reds L h
      have horig : origLinks tag q (s :: ss) = origLinks tag q ss := by
        simp [origLinks, List.filter_cons, hb]
      have hfilt : List.filter (fun s => !s.built) (s :: ss)
          = List.filter (fun s => !s.built) ss := by
        simp [List.filter_cons, hb]
      rw [horig, hfilt]
      exact ⟨ih1, ih2⟩
    · rw [if_neg hb]
      have hfold := fold_insertDecl_links q s (schemaDecls tag s) m L h
      obtain ⟨ih1, ih2⟩ := ih _ (reds ++ schemaRedefs tag s) _ hfold
      have horig : origLinks tag q (s :: ss)
          = ((schemaDecls tag s).filterMap
              (fun e => if getQname s.targetNamespace e.nameAttr = q
                        then some ((e, s) : Link) else none)) ++ origLinks tag q ss := by
        simp [origLinks, List.filter_cons, hb]
      have hfilt : List.filter (fun s => !s.built) (s :: ss)
          = s :: List.filter (fun s => !s.built) ss := by
        simp [List.filter_cons, hb]
      constructor
      · rw [ih1, horig, List.append_assoc]
      · rw [ih2, hfilt]
        simp [List.flatMap_cons, List.append_assoc]

/-- The redefinition phase appends the staged redefinitions of a key, in
staging order, to the key's link sequence. -/
theorem applyRedefs_links (q : QName) :
    ∀ (rs : List Redef) (m m2 : GMap) (L : List Link),
      lookupG m q = entryOfLinks L →
      applyRedefs m rs = .ok m2 →
      lookupG m2 q = entryOfLinks
        (L ++ rs.filterMap (fun r => if r.1 = q then some r.2 else none)) := by
  intro rs
  induction rs with
  | nil =>
    intro m m2 L h hok
    simp only [applyRedefs] at hok
    cases hok
    simpa using h
  | cons p rest ih =>
    intro m m2 L h hok
    obtain ⟨q0, l⟩ := p
    simp only [applyRedefs] at hok
    cases hq : lookupG m q0 with
    | none => rw [hq] at hok; exact absurd hok (by simp)
    | some ent =>
      rw [hq] at hok
      simp only [List.filterMap_cons]
      by_cases hk : q0 = q
      · subst hk
        have h2 := insertDecl_links m q0 l L h
        have h3 := ih _ _ (L ++ [l]) h2 hok
        rw [h3]
        simp
      · rw [if_neg hk]
        exact ih _ _ L (by rw [insertDecl_lookup_ne m q q0 l (fun hh => hk hh.symm)]; exact h) hok

/-- A key absent before loading ends with exactly its step-3 originals (in
scan order) followed by its step-4 redefinitions (in staging order). -/
theorem loadXsdGlobals_links (tag : Nat) (q : QName) (m0 : GMap) (ss : List Schema)
    (m1 : GMap) (h0 : lookupG m0 q = none)
    (hload : loadXsdGlobals tag m0 ss = .ok m1) :
    lookupG m1 q = entryOfLinks (origLinks tag q ss ++ redefLinksOf tag q ss) := by
  have hscan := loadScan_links tag q ss m0 [] [] (by simpa [entryOfLinks] using h0)
  have happ := applyRedefs_links q (loadScan tag ss m0 []).2
    (loadScan tag ss m0 []).1 m1 (origLinks tag q ss) (by simpa using hscan.1) hload
  rw [happ, hscan.2]
  simp [redefLinksOf]

/-! ## Builder chain threading (towards C6) -/

/-- A threaded resolution makes one invocation per link. -/
theorem threaded_length (f : Factory) (q : QName) :
    ∀ {L : List Link} {prev : Option Inst} {recs : List CallRec} {ilast : Inst},
      Threaded f q L prev recs ilast → recs.length = L.length := by
  intro L prev recs ilast h
  induction h with
  | last _ => rfl
  | step _ _ ih => simpa using ih

/-- All records of a threaded resolution carry the resolved key. -/
theorem threaded_keys (f : Factory) (q : QName) :
    ∀ {L : List Link} {prev : Option Inst} {recs : List CallRec} {ilast : Inst},
      Threaded f q L prev recs ilast → ∀ c ∈ recs, c.key = q := by
  intro L prev recs ilast h
  induction h with
  | last _ =>
    intro c hc
    simp at hc
    rw [hc]
  | step _ _ ih =>
    intro c hc
    rcases List.mem_cons.mp hc with rfl | hc2
    · rfl
    · exact ih c hc2

/-- Records all carrying another key are filtered away. -/
theorem filter_key_eq_nil (cs : List CallRec) (q0 q : QName)
    (h : ∀ c ∈ cs, c.key = q0) (hne : q0 ≠ q) :
    cs.filter (fun c => c.key == q) = [] := by
  induction cs with
  | nil => rfl
  | cons c cs ih =>
    have hk : c.key = q0 := h c (by simp)
    simp only [List.filter_cons]
    rw [if_neg (by simp [hk, hne])]
    exact ih (fun c' hc' => h c' (by simp [hc']))

/-- Records all carrying the filtered key are kept. -/
theorem filter_key_eq_self (cs : List CallRec) (q : QName)
    (h : ∀ c ∈ cs, c.key = q) :
    cs.filter (fun c => c.key == q) = cs := by
  induction cs with
  | nil => rfl
  | cons c cs ih =>
    simp only [List.filter_cons]
    rw [if_pos (by simp [h c (by simp)])]
    rw [ih (fun c' hc' => h c' (by simp [hc']))]

/-- The chain walk under an always-succeeding factory stores the last instance
and appends exactly the threaded invocation records. -/
theorem walkLinks_thread (f : Factory) (tag : Nat) (q : QName)
    (l1 : Link) (rest : List Link) :
    ∀ (pending : List Link) (prev : Option Inst) (headNow : Sum Inst Link)
      (lastRes : Option (QName × Inst × Elem)) (calls : List CallRec),
      pending ≠ [] →
      (∀ l ∈ pending, l.1.tag = tag) →
      (∀ l ∈ pending, ∀ p, ∃ i, f l.1 l.2 p = .ok q i) →
      ∃ recs ilast,
        walkLinks f tag q l1 rest prev headNow pending lastRes calls
          = .store ilast (calls ++ recs)
        ∧ Threaded f q pending prev recs ilast := by
  intro pending
  induction pending with
  | nil =>
    intro prev headNow lastRes calls hne _ _
    exact absurd rfl hne
  | cons hd pend ih =>
    intro prev headNow lastRes calls _ htags hf
    obtain ⟨e, s⟩ := hd
    have htag : e.tag = tag := htags (e, s) (by simp)
    obtain ⟨i, hfi⟩ := hf (e, s) (by simp) prev
    have hstep : walkLinks f tag q l1 rest prev headNow ((e, s) :: pend) lastRes calls
        = walkLinks f tag q l1 rest (some i) (.inl i) pend (some (q, i, e))
            (calls ++ [⟨q, e, s, prev⟩]) := by
      simp only [walkLinks]
      rw [if_neg (by simp [htag])]
      simp only [hfi]
    cases pend with
    | nil =>
      refine ⟨[⟨q, e, s, prev⟩], i, ?_, Threaded.last hfi⟩
      rw [hstep]
      simp only [walkLinks]
      rw [if_neg (by simp [htag]), if_neg (by simp : ¬q ≠ q)]
    | cons hd2 pend2 =>
      obtain ⟨recs, ilast, hw, ht⟩ := ih (some i) (.inl i) (some (q, i, e))
        (calls ++ [⟨q, e, s, prev⟩]) (by simp)
        (fun l hl => htags l (by simp [hl]))
        (fun l hl p => hf l (by simp [hl]) p)
      refine ⟨⟨q, e, s, prev⟩ :: recs, ilast, ?_, Threaded.step hfi ht⟩
      rw [hstep, hw]
      simp

/-- One key step on an entry holding the link sequence of a chain, under an
always-succeeding factory, stores the last instance with exactly the threaded
invocation records. -/
theorem processKey_store_thread (f : Factory) (tag : Nat) (q : QName) (L : List Link)
    (hne : L ≠ [])
    (htags : ∀ l ∈ L, l.1.tag = tag)
    (hf : ∀ l ∈ L, ∀ p, ∃ i, f l.1 l.2 p = .ok q i)
    (ent : Entry) (hent : entryOfLinks L = some ent) :
    ∃ recs ilast, processKey f tag q (some ent) = .store ilast recs
      ∧ Threaded f q L none recs ilast := by
  cases L with
  | nil => exact absurd rfl hne
  | cons l0 L1 =>
    cases L1 with
    | nil =>
      simp only [entryOfLinks] at hent
      cases hent
      obtain ⟨e, s⟩ := l0
      have htag : e.tag = tag := htags (e, s) (by simp)
      obtain ⟨i, hfi⟩ := hf (e, s) (by simp) none
      refine ⟨[⟨q, e, s, none⟩], i, ?_, Threaded.last hfi⟩
      simp only [processKey]
      rw [if_neg (by simp [htag])]
      simp only [hfi]
      rw [if_neg (by simp [htag]), if_neg (by simp : ¬q ≠ q)]
    | cons l1 L2 =>
      simp only [entryOfLinks] at hent
      cases hent
      obtain ⟨recs, ilast, hw, ht⟩ := walkLinks_thread f tag q l1 L2
        (l0 :: l1 :: L2) none (.inr l0) none [] (by simp) htags hf
      refine ⟨recs, ilast, ?_, ht⟩
      have hpk : processKey f tag q (some (.chain (.inr l0) l1 L2))
          = walkLinks f tag q l1 L2 none (.inr l0) (l0 :: l1 :: L2) none [] := by
        simp only [processKey]
      rw [hpk, hw]
      simp

/-- Every record produced by the chain walk carries the processed key. -/
theorem walkLinks_calls_key (f : Factory) (tag : Nat) (q : QName)
    (l1 : Link) (rest : List Link) :
    ∀ (pending : List Link) (prev : Option Inst) (headNow : Sum Inst Link)
      (lastRes : Option (QName × Inst × Elem)) (calls : List CallRec),
      (∀ c ∈ calls, c.key = q) →
      ∀ c ∈ (walkLinks f tag q l1 rest prev headNow pending lastRes calls).callsOf,
        c.key = q := by
  intro pending
  induction pending with
  | nil =>
    intro prev headNow lastRes calls hcalls c hc
    cases lastRes with
    | none =>
      simp only [walkLinks, KeyStep.callsOf] at hc
      exact hcalls c hc
    | some r =>
      obtain ⟨rq, i, e⟩ := r
      simp only [walkLinks] at hc
      by_cases ht : e.tag ≠ tag
      · rw [if_pos ht] at hc
        exact hcalls c hc
      · rw [if_neg ht] at hc
        by_cases hq : rq ≠ q
        · rw [if_pos hq] at hc
          exact hcalls c hc
        · rw [if_neg hq] at hc
          exact hcalls c hc
  | cons hd pend ih =>
    intro prev headNow lastRes calls hcalls c hc
    obtain ⟨e, s⟩ := hd
    simp only [walkLinks] at hc
    by_cases ht : e.tag ≠ tag
    · rw [if_pos ht] at hc
      exact hcalls c hc
    · rw [if_neg ht] at hc
      cases hff : f e s prev with
      | ok rq i =>
        simp only [hff] at hc
        refine ih (some i) (.inl i) (some (rq, i, e)) (calls ++ [⟨q, e, s, prev⟩]) ?_ c hc
        intro c' hc'
        rcases List.mem_append.mp hc' with h2 | h2
        · exact hcalls c' h2
        · simp at h2
          rw [h2]
      | typeErr msg =>
        simp only [hff, KeyStep.callsOf] at hc
        rcases List.mem_append.mp hc with h2 | h2
        · exact hcalls c h2
        · simp at h2
          rw [h2]
      | lookupErr msg =>
        simp only [hff, KeyStep.callsOf] at hc
        rcases List.mem_append.mp hc with h2 | h2
        · exact hcalls c h2
        · simp at h2
          rw [h2]

/-- Every record produced by one key step carries the processed key. -/
theorem processKey_calls_key (f : Factory) (tag : Nat) (q : QName) (ent : Option Entry) :
    ∀ c ∈ (processKey f tag q ent).callsOf, c.key = q := by
  intro c hc
  match ent with
  | none => simp [processKey, KeyStep.callsOf] at hc
  | some (Entry.inst i) =>
    rw [processKey.eq_2] at hc
    cases hel : i.elem with
    | none =>
      simp only [hel, KeyStep.callsOf] at hc
      simp at hc
    | some e =>
      simp only [hel] at hc
      by_cases hcond : e.tag ≠ tag ∨ i.schema.built = true
      · rw [if_pos hcond] at hc
        simp [KeyStep.callsOf] at hc
      · rw [if_neg hcond] at hc
        cases hff : f e i.schema (some i) with
        | ok rq x =>
          simp only [hff] at hc
          by_cases ht : e.tag ≠ tag
          · rw [if_pos ht] at hc
            simp [KeyStep.callsOf] at hc
            rw [hc]
          · rw [if_neg ht] at hc
            by_cases hq : rq ≠ q
            · rw [if_pos hq] at hc
              simp [KeyStep.callsOf] at hc
              rw [hc]
            · rw [if_neg hq] at hc
              simp [KeyStep.callsOf] at hc
              rw [hc]
        | typeErr msg =>
          simp only [hff, KeyStep.callsOf] at hc
          simp at hc
          rw [hc]
        | lookupErr msg =>
          simp only [hff, KeyStep.callsOf] at hc
          simp at hc
          rw [hc]
  | some (Entry.single (e, s)) =>
    simp only [processKey] at hc
    by_cases ht : e.tag ≠ tag
    · rw [if_pos ht] at hc
      simp [KeyStep.callsOf] at hc
    · rw [if_neg ht] at hc
      cases hff : f e s none with
      | ok rq x =>
        simp only [hff] at hc
        by_cases ht2 : e.tag ≠ tag
        · rw [if_pos ht2] at hc
          simp [KeyStep.callsOf] at hc
          rw [hc]
        · rw [if_neg ht2] at hc
          by_cases hq : rq ≠ q
          · rw [if_pos hq] at hc
            simp [KeyStep.callsOf] at hc
            rw [hc]
          · rw [if_neg hq] at hc
            simp [KeyStep.callsOf] at hc
            rw [hc]
      | typeErr msg =>
        simp only [hff, KeyStep.callsOf] at hc
        simp at hc
        rw [hc]
      | lookupErr msg =>
        simp only [hff, KeyStep.callsOf] at hc
        simp at hc
        rw [hc]
  | some (Entry.chain (.inr l0) la rest) =>
    simp only [processKey] at hc
    exact walkLinks_calls_key f tag q la rest _ _ _ _ _ (by simp) c hc
  | some (Entry.chain (.inl i) la rest) =>
    simp only [processKey] at hc
    exact walkLinks_calls_key f tag q la rest _ _ _ _ _ (by simp) c hc

/-- Records that never carry the filtered key are all filtered away. -/
theorem filter_key_nil_of_ne (cs : List CallRec) (q : QName)
    (h : ∀ c ∈ cs, c.key ≠ q) : cs.filter (fun c => c.key == q) = [] := by
  induction cs with
  | nil => rfl
  | cons c cs ih =>
    simp only [List.filter_cons]
    rw [if_neg (by simp [h c (by simp)])]
    exact ih (fun c' hc' => h c' (by simp [hc']))

/-- A pass whose working set avoids a key leaves that key's entry, its
presence among the deferred keys, and its share of the log unchanged. -/
theorem runPass_no_q (f : Factory) (tag : Nat) (ec : Nat) (q : QName) :
    ∀ (ws : List QName) (m : GMap) (missing : List QName) (errs : List BErr)
      (log : List CallRec) (m' : GMap) (missing' : List QName) (log' : List CallRec),
      runPass f tag ec ws m missing errs log = .ok (m', missing', log') →
      q ∉ ws →
      lookupG m' q = lookupG m q
      ∧ log'.filter (fun c => c.key == q) = log.filter (fun c => c.key == q)
      ∧ (q ∉ missing → q ∉ missing') := by
  intro ws
  induction ws with
  | nil =>
    intro m missing errs log m' missing' log' h _
    simp only [runPass] at h
    obtain ⟨rfl, rfl, rfl⟩ := h
    exact ⟨rfl, rfl, fun hq => hq⟩
  | cons q0 ws ih =>
    intro m missing errs log m' missing' log' h hq
    have hq0 : q0 ≠ q := fun hh => hq (by simp [hh])
    have hqws : q ∉ ws := fun hh => hq (by simp [hh])
    simp only [runPass] at h
    cases hpk : processKey f tag q0 (lookupG m q0) with
    | skip upd calls =>
      rw [hpk] at h
      have hcalls : ∀ c ∈ calls, c.key = q0 := by
        have hck := processKey_calls_key f tag q0 (lookupG m q0)
        rw [hpk] at hck
        exact hck
      obtain ⟨ih1, ih2, ih3⟩ := ih _ _ _ _ _ _ _ h hqws
      refine ⟨?_, ?_, ih3⟩
      · rw [ih1]
        cases upd with
        | none => rfl
        | some ent' => exact lookupG_updateG_ne m q0 q ent' (Ne.symm hq0)
      · rw [ih2, List.filter_append, filter_key_eq_nil calls q0 q hcalls hq0]
        simp
    | store i calls =>
      rw [hpk] at h
      have hcalls : ∀ c ∈ calls, c.key = q0 := by
        have hck := processKey_calls_key f tag q0 (lookupG m q0)
        rw [hpk] at hck
        exact hck
      obtain ⟨ih1, ih2, ih3⟩ := ih _ _ _ _ _ _ _ h hqws
      refine ⟨?_, ?_, ih3⟩
      · rw [ih1]
        exact lookupG_updateG_ne m q0 q _ (Ne.symm hq0)
      · rw [ih2, List.filter_append, filter_key_eq_nil calls q0 q hcalls hq0]
        simp
    | fatal e calls =>
      rw [hpk] at h
      exact absurd h (by simp)
    | deferred upd lk stuckEid calls =>
      rw [hpk] at h
      have hcalls : ∀ c ∈ calls, c.key = q0 := by
        have hck := processKey_calls_key f tag q0 (lookupG m q0)
        rw [hpk] at hck
        exact hck
      by_cases hc : (missing ++ [q0]).length = ec
      · cases lk <;> (simp only at h; rw [if_pos hc] at h; exact absurd h (by simp))
      · have h' : runPass f tag ec ws (applyUpd m q0 upd) (missing ++ [q0])
            (match lk with
             | some msg => errs ++ [BErr.lookupE msg]
             | none => errs) (log ++ calls) = .ok (m', missing', log') := by
          cases lk <;> (simp only at h; rw [if_neg hc] at h; exact h)
        obtain ⟨ih1, ih2, ih3⟩ := ih _ _ _ _ _ _ _ h' hqws
        refine ⟨?_, ?_, ?_⟩
        · rw [ih1]
          cases upd with
          | none => rfl
          | some ent' => exact lookupG_updateG_ne m q0 q ent' (Ne.symm hq0)
        · rw [ih2, List.filter_append, filter_key_eq_nil calls q0 q hcalls hq0]
          simp
        · intro hmq
          refine ih3 ?_
          simp only [List.mem_append, List.mem_singleton]
          rintro (hmq2 | hmq2)
          · exact hmq hmq2
          · exact hq0 hmq2.symm

/-- When the working set contains a key whose step stores an instance, a
successful pass leaves that key resolved, undeferred, and contributes exactly
the step's invocation records to the key's share of the log. -/
theorem runPass_key_store (f : Factory) (tag : Nat) (ec : Nat) (q : QName)
    (ent : Entry) (ilast : Inst) (recs : List CallRec) :
    ∀ (ws : List QName) (m : GMap) (missing : List QName) (errs : List BErr)
      (log : List CallRec) (m' : GMap) (missing' : List QName) (log' : List CallRec),
      runPass f tag ec ws m missing errs log = .ok (m', missing', log') →
      ws.Nodup → q ∈ ws →
      lookupG m q = some ent →
      processKey f tag q (some ent) = .store ilast recs →
      (∀ c ∈ log, c.key ≠ q) →
      q ∉ missing →
      lookupG m' q = some (.inst ilast) ∧ q ∉ missing'
        ∧ log'.filter (fun c => c.key == q) = recs := by
  intro ws
  induction ws with
  | nil =>
    intro m missing errs log m' missing' log' _ _ hqin
    simp at hqin
  | cons q0 ws ih =>
    intro m missing errs log m' missing' log' h hnod hqin hlk hstore hlog hqm
    simp only [runPass] at h
    by_cases hq0 : q0 = q
    · subst hq0
      rw [hlk] at h
      simp only [hstore] at h
      have hq0ws : q0 ∉ ws := (List.nodup_cons.mp hnod).1
      have hrecs : ∀ c ∈ recs, c.key = q0 := by
        have hck := processKey_calls_key f tag q0 (some ent)
        rw [hstore] at hck
        exact hck
      obtain ⟨n1, n2, n3⟩ := runPass_no_q f tag ec q0 ws _ _ _ _ _ _ _ h hq0ws
      refine ⟨?_, n3 hqm, ?_⟩
      · rw [n1]
        exact lookupG_updateG_self m q0 _
      · rw [n2, List.filter_append, filter_key_eq_self recs q0 hrecs,
          filter_key_nil_of_ne log q0 hlog]
        simp
    · have hqin' : q ∈ ws := by
        rcases List.mem_cons.mp hqin with rfl | h2
        · exact absurd rfl hq0
        · exact h2
      have hnod' : ws.Nodup := (List.nodup_cons.mp hnod).2
      have hq0q : q0 ≠ q := hq0
      cases hpk : processKey f tag q0 (lookupG m q0) with
      | skip upd calls =>
        rw [hpk] at h
        have hcalls : ∀ c ∈ calls, c.key = q0 := by
          have hck := processKey_calls_key f tag q0 (lookupG m q0)
          rw [hpk] at hck
          exact hck
        refine ih _ _ _ _ _ _ _ h hnod' hqin' ?_ hstore ?_ hqm
        · cases upd with
          | none => exact hlk
          | some ent' =>
            rw [show applyUpd m q0 (some ent') = updateG m q0 ent' from rfl,
              lookupG_updateG_ne m q0 q ent' (Ne.symm hq0q)]
            exact hlk
        · intro c hc
          rcases List.mem_append.mp hc with h2 | h2
          · exact hlog c h2
          · rw [hcalls c h2]
            exact hq0q
      | store i calls =>
        rw [hpk] at h
        have hcalls : ∀ c ∈ calls, c.key = q0 := by
          have hck := processKey_calls_key f tag q0 (lookupG m q0)
          rw [hpk] at hck
          exact hck
        refine ih _ _ _ _ _ _ _ h hnod' hqin' ?_ hstore ?_ hqm
        · rw [lookupG_updateG_ne m q0 q _ (Ne.symm hq0q)]
          exact hlk
        · intro c hc
          rcases List.mem_append.mp hc with h2 | h2
          · exact hlog c h2
          · rw [hcalls c h2]
            exact hq0q
      | fatal e calls =>
        rw [hpk] at h
        exact absurd h (by simp)
      | deferred upd lk stuckEid calls =>
        rw [hpk] at h
        have hcalls : ∀ c ∈ calls, c.key = q0 := by
          have hck := processKey_calls_key f tag q0 (lookupG m q0)
          rw [hpk] at hck
          exact hck
        by_cases hc : (missing ++ [q0]).length = ec
        · cases lk <;> (simp only at h; rw [if_pos hc] at h; exact absurd h (by simp))
        · have h' : runPass f tag ec ws (applyUpd m q0 upd) (missing ++ [q0])
              (match lk with
               | some msg => errs ++ [BErr.lookupE msg]
               | none => errs) (log ++ calls) = .ok (m', missing', log') := by
            cases lk <;> (simp only at h; rw [if_neg hc] at h; exact h)
          refine ih _ _ _ _ _ _ _ h' hnod' hqin' ?_ hstore ?_ ?_
          · cases upd with
            | none => exact hlk
            | some ent' =>
              rw [show applyUpd m q0 (some ent') = updateG m q0 ent' from rfl,
                lookupG_updateG_ne m q0 q ent' (Ne.symm hq0q)]
              exact hlk
          · intro c hc2
            rcases List.mem_append.mp hc2 with h2 | h2
            · exact hlog c h2
            · rw [hcalls c h2]
              exact hq0q
          · simp only [List.mem_append, List.mem_singleton]
            rintro (hmq2 | hmq2)
            · exact hqm hmq2
            · exact hq0q hmq2.symm

/-- A loop whose working set avoids a key leaves that key's entry and its
share of the log unchanged. -/
theorem buildLoop_no_q (f : Factory) (tag : Nat) (q : QName) :
    ∀ (fuel : Nat) (ws : List QName) (ec : Nat) (m : GMap) (log : List CallRec)
      (m' : GMap) (log' : List CallRec),
      buildLoop f tag fuel ws ec m log = .ok (m', log') →
      q ∉ ws →
      lookupG m' q = lookupG m q
      ∧ log'.filter (fun c => c.key == q) = log.filter (fun c => c.key == q) := by
  intro fuel
  induction fuel with
  | zero =>
    intro ws ec m log m' log' h
    exact absurd h (by simp [buildLoop])
  | succ n ih =>
    intro ws ec m log m' log' h hq
    simp only [buildLoop] at h
    cases hrp : runPass f tag ec ws m [] [] log with
    | error fail =>
      simp only [hrp] at h
      exact absurd h (by simp)
    | ok r =>
      obtain ⟨m1, missing, log1⟩ := r
      simp only [hrp] at h
      obtain ⟨n1, n2, n3⟩ := runPass_no_q f tag ec q ws m [] [] log m1 missing log1 hrp hq
      by_cases hmiss : missing.isEmpty
      · rw [if_pos hmiss] at h
        cases h
        exact ⟨n1, n2⟩
      · rw [if_neg hmiss] at h
        obtain ⟨p1, p2⟩ := ih missing missing.length m1 log1 m' log' h (n3 (by simp))
        exact ⟨p1.trans n1, p2.trans n2⟩

/-- C6: a chain whose links all carry the builder's target tag and whose
factory calls all succeed resolves in the first pass with exactly one factory
invocation per link, in chain order — the step-3 originals in schema scan
order followed by the step-4 redefinitions in staging order, as the loader
stores them — threading each produced instance into the next call, and the
last instance is stored as the map value. -/
theorem c6_chain_resolution (tag : Nat) (q : QName) (m0 : GMap) (ss : List Schema)
    (f : Factory) (m1 m2 : GMap) (lg : List CallRec) (L : List Link)
    (h0 : lookupG m0 q = none)
    (hL : L = origLinks tag q ss ++ redefLinksOf tag q ss)
    (hne : L ≠ [])
    (htags : ∀ l ∈ L, l.1.tag = tag)
    (hf : ∀ l ∈ L, ∀ p, ∃ i, f l.1 l.2 p = .ok q i)
    (hload : loadXsdGlobals tag m0 ss = .ok m1)
    (hnodup : (keysOf m1).Nodup)
    (hbuild : buildXsdMap f tag m1 = .ok (m2, lg)) :
    ∃ ilast,
      Threaded f q L none (lg.filter (fun c => c.key == q)) ilast
      ∧ lookupG m2 q = some (.inst ilast)
      ∧ (lg.filter (fun c => c.key == q)).length = L.length := by
  have hlinks : lookupG m1 q = entryOfLinks L := by
    rw [hL]
    exact loadXsdGlobals_links tag q m0 ss m1 h0 hload
  obtain ⟨ent, hent⟩ : ∃ ent, entryOfLinks L = some ent := by
    cases L with
    | nil => exact absurd rfl hne
    | cons l0 L1 => cases L1 <;> exact ⟨_, rfl⟩
  obtain ⟨recs, ilast, hstore, ht⟩ := processKey_store_thread f tag q L hne htags hf ent hent
  have hlk1 : lookupG m1 q = some ent := by rw [hlinks, hent]
  have hqkeys : q ∈ keysOf m1 :=
    List.mem_map_of_mem Prod.fst (lookupG_some_mem m1 q ent hlk1)
  have hbl : buildLoop f tag (m1.length + 2) (keysOf m1) 0 m1 [] = .ok (m2, lg) := hbuild
  simp only [buildLoop] at hbl
  cases hrp : runPass f tag 0 (keysOf m1) m1 [] [] [] with
  | error fail =>
    simp only [hrp] at hbl
    exact absurd hbl (by simp)
  | ok r =>
    obtain ⟨mA, missing, logA⟩ := r
    simp only [hrp] at hbl
    obtain ⟨k1, k2, k3⟩ := runPass_key_store f tag 0 q ent ilast recs (keysOf m1) m1
      [] [] [] mA missing logA hrp hnodup hqkeys hlk1 hstore (by simp) (by simp)
    by_cases hmiss : missing.isEmpty
    · rw [if_pos hmiss] at hbl
      cases hbl
      exact ⟨ilast, by rw [k3]; exact ht, k1,
        by rw [k3]; exact threaded_length f q ht⟩
    · rw [if_neg hmiss] at hbl
      obtain ⟨n1, n2⟩ := buildLoop_no_q f tag q (m1.length + 1) missing missing.length
        mA logA m2 lg hbl k2
      refine ⟨ilast, ?_, ?_, ?_⟩
      · rw [n2, k3]
        exact ht
      · rw [n1, k1]
      · rw [n2, k3]
        exact threaded_length f q ht

/-- C6 witness: `c6_chain_resolution` on one schema declaring a three-link
chain (two originals and one redefinition) for `qW` under an
always-succeeding factory — three invocations in chain order, threading the
instances, final instance stored. -/
theorem c6_chain_resolution_witness :
    lookupG ([] : GMap) qW = none
    ∧ linksW = origLinks 5 qW [schFullW] ++ redefLinksOf 5 qW [schFullW]
    ∧ linksW ≠ []
    ∧ (∀ l ∈ linksW, l.1.tag = 5)
    ∧ (∀ l ∈ linksW, ∀ p, ∃ i, fOkW l.1 l.2 p = .ok qW i)
    ∧ loadXsdGlobals 5 [] [schFullW] = .ok mChainW
    ∧ (keysOf mChainW).Nodup
    ∧ buildXsdMap fOkW 5 mChainW = .ok (m2W, lgW)
    ∧ (∃ ilast, Threaded fOkW qW linksW none (lgW.filter (fun c => c.key == qW)) ilast
        ∧ lookupG m2W qW = some (.inst ilast)
        ∧ (lgW.filter (fun c => c.key == qW)).length = linksW.length) :=
  ⟨rfl, rfl, by simp [linksW], by decide, fun l hl p => ⟨_, rfl⟩, rfl, by decide, rfl,
   c6_chain_resolution 5 qW [] [schFullW] fOkW mChainW m2W lgW linksW rfl rfl
     (by simp [linksW]) (by decide) (fun l hl p => ⟨_, rfl⟩) rfl (by decide) rfl⟩

end XmlSchema
